import Mathlib

/-!
Shallow embedding of the `maze_generator` Rust crate (files
`src/prelude/coordinates.rs`, `src/prelude/maze.rs`, `src/lib.rs`),
together with models of the parts of the crate whose source files are
not available (the `Direction`, `Field` and `SvgOptions` types and the
generator algorithms), which are modelled from the specification.

Machine integers (`i32`) are modelled as `Int`.  All coordinates
handled by the maze queries are bounded by the maze size, so their
arithmetic never leaves the `i32` range; the one operation whose
stated contract quantifies over arbitrary coordinates,
`Coordinates::next`, is additionally modelled with faithful
two's-complement wrap-around (`Coordinates.next32`, release-build
semantics) so that its behaviour at the `i32` boundary is captured.
-/

namespace MazeGen

/-! ## Direction (modelled from the spec) -/

/-- Modelled from the spec: the 4-way direction enumeration
(`direction.rs` is not among the available sources). Spec §3:
"one of {North, East, South, West}". -/
inductive Direction where
  | North
  | East
  | South
  | West
deriving DecidableEq, Repr

/-- Modelled from the spec: "enumerate all four (fixed order: North,
East, South, West)" (spec §3). -/
def Direction.all : List Direction :=
  [Direction.North, Direction.East, Direction.South, Direction.West]

/-- Modelled from the spec: "compute the opposite direction" (spec §3). -/
def Direction.opposite : Direction → Direction
  | Direction.North => Direction.South
  | Direction.South => Direction.North
  | Direction.East => Direction.West
  | Direction.West => Direction.East

/-! ## Coordinates (from `src/prelude/coordinates.rs`) -/

/-- `Coordinates` from `coordinates.rs`: two `i32` components. -/
structure Coordinates where
  x : Int
  y : Int
deriving DecidableEq, Repr

/-- `Coordinates::new`. -/
def Coordinates.new (x y : Int) : Coordinates := ⟨x, y⟩

/-- `Coordinates::next`: the neighboring coordinates in a direction,
with no bounds checking (from `coordinates.rs` lines 22-37). -/
def Coordinates.next (c : Coordinates) (d : Direction) : Coordinates :=
  { x := c.x + (match d with
      | Direction.East => 1
      | Direction.West => -1
      | _ => 0),
    y := c.y + (match d with
      | Direction.North => -1
      | Direction.South => 1
      | _ => 0) }

/-- Wraps an integer into the two's-complement `i32` range
`[-2^31, 2^31)`, the release-build result of an overflowing `i32`
addition. -/
def wrap32 (n : Int) : Int := (n + 2 ^ 31) % 2 ^ 32 - 2 ^ 31

/-- Membership in the representable `i32` range. -/
def inI32 (n : Int) : Prop := -(2 ^ 31) ≤ n ∧ n < 2 ^ 31

/-- `Coordinates::next` with release-build `i32` semantics
(`coordinates.rs` lines 22-37): the same component offsets as
`Coordinates.next`, but the additions wrap around at the `i32`
boundary instead of being exact. -/
def Coordinates.next32 (c : Coordinates) (d : Direction) : Coordinates :=
  { x := wrap32 (c.x + (match d with
      | Direction.East => 1
      | Direction.West => -1
      | _ => 0)),
    y := wrap32 (c.y + (match d with
      | Direction.North => -1
      | Direction.South => 1
      | _ => 0)) }

/-! ## Field (modelled from the spec) -/

/-- Modelled from the spec: field type Start | Goal | Normal
(`field.rs` is not among the available sources; spec §3). -/
inductive FieldType where
  | Start
  | Goal
  | Normal
deriving DecidableEq, Repr

/-- Modelled from the spec: "a read-only projection of one cell: its
type (Start | Goal | Normal), its coordinates, and the subset of
{North,East,South,West} for which a passage exists" (spec §3). -/
structure Field where
  field_type : FieldType
  coordinates : Coordinates
  passages : List Direction
deriving DecidableEq, Repr

/-- `Field::new` as used by `Maze::get_field`. -/
def Field.new (t : FieldType) (c : Coordinates) (p : List Direction) : Field :=
  ⟨t, c, p⟩

/-- Modelled from the spec: `has_passage` tests membership of a
direction in the field's passage subset (used by both renderers in
`maze.rs`). -/
def Field.has_passage (f : Field) (d : Direction) : Bool :=
  f.passages.contains d

/-! ## The maze graph (`MazeGraph` = `GraphMap<Coordinates, (), Undirected>`) -/

/-- Model of petgraph's undirected `GraphMap` keyed by `Coordinates`:
a node list and an edge list; an edge is stored once in either
orientation and queried symmetrically. -/
structure MazeGraph where
  nodes : List Coordinates
  edges : List (Coordinates × Coordinates)
deriving DecidableEq, Repr

/-- `GraphMap::contains_edge` for an undirected graph: an edge matches
in either orientation. -/
def MazeGraph.containsEdge (g : MazeGraph) (a b : Coordinates) : Bool :=
  g.edges.any (fun e => (e.1 == a && e.2 == b) || (e.1 == b && e.2 == a))

/-- The empty graph (`GraphMap::with_capacity` allocates no nodes or
edges). -/
def MazeGraph.empty : MazeGraph := ⟨[], []⟩

/-! ## Maze (from `src/prelude/maze.rs`) -/

/-- `Maze` from `maze.rs`: graph, start, goal and `size : (i32, i32)`
in (width, height) format. -/
structure Maze where
  graph : MazeGraph
  start : Coordinates
  goal : Coordinates
  size : Int × Int
deriving DecidableEq, Repr

/-- `Maze::new` with the semantics of a release build: the
`debug_assert!` calls on lines 34-35 of `maze.rs` are compiled out, so
the value is constructed without any size check. -/
def Maze.new (width height : Int) (start goal : Coordinates) : Maze :=
  { graph := MazeGraph.empty, size := (width, height), start := start, goal := goal }

/-- `Maze::new` with the semantics of a build with debug assertions
enabled: `debug_assert!(width > 0)` and `debug_assert!(height > 0)`
panic (modelled as `none`) when violated. -/
def Maze.newDebug (width height : Int) (start goal : Coordinates) : Option Maze :=
  if 0 < width ∧ 0 < height then some (Maze.new width height start goal) else none

/-- `Maze::are_coordinates_inside` (`maze.rs` lines 72-77). -/
def Maze.are_coordinates_inside (m : Maze) (c : Coordinates) : Bool :=
  0 ≤ c.x && c.x < m.size.1 && 0 ≤ c.y && c.y < m.size.2

/-- `Maze::get_field` (`maze.rs` lines 46-70): `None` out of bounds;
otherwise the field with the passage subset computed by filtering
`Direction::all()` through `contains_edge`, and the field type chosen
by comparing against `start` first, then `goal`. -/
def Maze.get_field (m : Maze) (c : Coordinates) : Option Field :=
  if m.are_coordinates_inside c then
    some (Field.new
      (if m.start = c then FieldType.Start
       else if m.goal = c then FieldType.Goal
       else FieldType.Normal)
      c
      (Direction.all.filter (fun d => m.graph.containsEdge c (c.next d))))
  else
    none

/-! ## Graph isomorphism and maze equality (`PartialEq for Maze`) -/

/-- Model of petgraph's `is_isomorphic` (which ignores node and edge
weights): a bijection between the node sets that preserves adjacency
in both directions. -/
def MazeGraph.IsIsomorphic (g₁ g₂ : MazeGraph) : Prop :=
  ∃ f g : Coordinates → Coordinates,
    (∀ v ∈ g₁.nodes, f v ∈ g₂.nodes ∧ g (f v) = v) ∧
    (∀ v ∈ g₂.nodes, g v ∈ g₁.nodes ∧ f (g v) = v) ∧
    (∀ a ∈ g₁.nodes, ∀ b ∈ g₁.nodes,
      g₁.containsEdge a b = g₂.containsEdge (f a) (f b))

/-- `PartialEq for Maze` (`maze.rs` lines 276-287): equal start, goal
and size, and isomorphic graphs. -/
def Maze.eq (m₁ m₂ : Maze) : Prop :=
  m₁.start = m₂.start ∧ m₁.goal = m₂.goal ∧ m₁.size = m₂.size ∧
    MazeGraph.IsIsomorphic m₁.graph m₂.graph

/-! ## Text (Debug) rendering (`impl Debug for Maze`, `maze.rs` lines 80-127)

The formatter writes a sequence of string pieces; we model the output
as the concatenation of emitted lines (each line one `\n`-terminated
string).  The only failure source is `get_field(..).ok_or(fmt::Error)`,
modelled by the `Option` monad. -/

/-- The cell abscissas `0..n` of one row (Rust `for ix in 0..n`). -/
def rowCells (n : Int) : List Int :=
  (List.range n.toNat).map Int.ofNat

/-- One "top passage" line of the Debug output: per cell `·` then `-`
or a space depending on the North passage, terminated by `·\n`. -/
def Maze.topLine (m : Maze) (iy : Int) : Option String := do
  let pieces ← (rowCells m.size.1).mapM (fun ix => do
    let f ← m.get_field ⟨ix, iy⟩
    pure ("·" ++ (if f.has_passage Direction.North then " " else "-")))
  pure (String.join pieces ++ "·\n")

/-- One "left passage and room icon" line of the Debug output: per
cell `|` or a space depending on the West passage, then `S`, `G` or a
space depending on the field type, terminated by `|\n`. -/
def Maze.midLine (m : Maze) (iy : Int) : Option String := do
  let pieces ← (rowCells m.size.1).mapM (fun ix => do
    let f ← m.get_field ⟨ix, iy⟩
    pure ((if f.has_passage Direction.West then " " else "|") ++
      (match f.field_type with
        | FieldType.Start => "S"
        | FieldType.Goal => "G"
        | _ => " ")))
  pure (String.join pieces ++ "|\n")

/-- The closing line of the Debug output: `·-` per cell then `·\n`. -/
def Maze.bottomLine (m : Maze) : String :=
  String.join ((rowCells m.size.1).map (fun _ => "·-")) ++ "·\n"

/-- All lines emitted by the Debug implementation, in order: for each
row its top line and its mid line, plus the bottom line after the last
row. -/
def Maze.debugLines (m : Maze) : Option (List String) := do
  let rows ← (rowCells m.size.2).mapM (fun iy => do
    let t ← m.topLine iy
    let mid ← m.midLine iy
    pure (if iy = m.size.2 - 1 then [t, mid, m.bottomLine] else [t, mid]))
  pure rows.flatten

/-- `format!("{:?}", maze)`: the full Debug output string; `none`
models a `fmt::Error` raised by a failed `get_field`. -/
def Maze.debugFmt (m : Maze) : Option String :=
  (m.debugLines).map String.join

/-- The Debug output lines as the spec describes them (spec §6 "Text
rendering"): walking the grid row by row, for each cell a corner
marker `·` followed by `-` when the North passage is absent and a
space when present; then per cell `|` when the West passage is absent
and a space when present, with `S` at the start cell, `G` at the goal
cell and a space elsewhere; and a closing `·-` line after the last
row.  This closed form is proved equal to the renderer's output. -/
def debugSpecLines (m : Maze) : List String :=
  (rowCells m.size.2).flatMap (fun iy =>
    [String.join ((rowCells m.size.1).map (fun ix =>
        "·" ++ (if m.graph.containsEdge ⟨ix, iy⟩
            ((⟨ix, iy⟩ : Coordinates).next Direction.North) then " " else "-"))) ++ "·\n",
     String.join ((rowCells m.size.1).map (fun ix =>
        (if m.graph.containsEdge ⟨ix, iy⟩
            ((⟨ix, iy⟩ : Coordinates).next Direction.West) then " " else "|") ++
        (if m.start = ⟨ix, iy⟩ then "S"
         else if m.goal = ⟨ix, iy⟩ then "G" else " "))) ++ "|\n"] ++
    (if iy = m.size.2 - 1 then [m.bottomLine] else []))

/-! ## SVG rendering (`Maze::to_svg`, `maze.rs` lines 131-265) -/

/-- Modelled from the spec: the options record of `to_svg`
(`svg_options.rs` is not among the available sources): "configurable
padding, stroke width/color, marker circle radius/color for start and
goal" (spec §6), plus the optional image height read by `to_svg`. -/
structure SvgOptions where
  padding : Int
  markersize : Int
  height : Option Int
  strokewidth : Int
  strokecol : String
  startcol : String
  goalcol : String

/-- One `<line .../>` element as written by `to_svg`. -/
def lineChunk (x1 y1 x2 y2 : Int) : String :=
  "<line x1=\"" ++ toString x1 ++ "\" y1=\"" ++ toString y1 ++
    "\" x2=\"" ++ toString x2 ++ "\" y2=\"" ++ toString y2 ++ "\"/>\n"

/-- One `<circle .../>` marker element as written by `to_svg`. -/
def circleChunk (cx cy r : Int) (col : String) (sw : Int) (fill : String) : String :=
  "<circle cx=\"" ++ toString cx ++ "\" cy=\"" ++ toString cy ++
    "\" r=\"" ++ toString r ++ "\" stroke=\"" ++ col ++
    "\" stroke-width=\"" ++ toString sw ++ "\" fill=\"" ++ fill ++ "\" />\n"

/-- The header chunks of the SVG document (the `writeln!` calls before
the row loop), given the already-scaled width and height. -/
def svgHeader (width height padding : Int) (o : SvgOptions) : List String :=
  ["<?xml version=\"1.0\" encoding=\"utf-8\"?>\n",
   "<svg xmlns=\"http://www.w3.org/2000/svg\"\n",
   "    xmlns:xlink=\"http://www.w3.org/1999/xlink\"\n",
   "    width=\"" ++ toString (width + 2 * padding) ++ "\" height=\"" ++
     toString (height + 2 * padding) ++ "\" viewBox=\"" ++ toString (-padding) ++
     " " ++ toString (-padding) ++ " " ++ toString (width + 2 * padding) ++ " " ++
     toString (height + 2 * padding) ++ "\">\n",
   "<defs>\n<style type=\"text/css\"><![CDATA[\n",
   "line \x7b\n",
   "    stroke: " ++ o.strokecol ++ ";\n    stroke-linecap: square;\n",
   "    stroke-width: " ++ toString o.strokewidth ++ ";\n\x7d\n",
   "]]></style>\n</defs>\n"]

/-- The chunks emitted by one iteration of the row loop of `to_svg`:
a wall line per cell missing its North passage, then per cell a wall
line when the West passage is missing followed by a marker circle at
the start or goal cell, then the bottom and right border lines. -/
def Maze.svgRow (m : Maze) (o : SvgOptions) (scx scy : Int) (iy : Int) :
    Option (List String) := do
  let north ← (rowCells m.size.1).mapM (fun ix => do
    let f ← m.get_field ⟨ix, iy⟩
    pure (if f.has_passage Direction.North then ([] : List String)
      else [lineChunk (ix * scx) (iy * scy) ((ix + 1) * scx) (iy * scy)]))
  let west ← (rowCells m.size.1).mapM (fun ix => do
    let f ← m.get_field ⟨ix, iy⟩
    pure ((if f.has_passage Direction.West then ([] : List String)
        else [lineChunk (ix * scx) (iy * scy) (ix * scx) ((iy + 1) * scy)]) ++
      (match f.field_type with
        | FieldType.Start =>
          [circleChunk (ix * scx + Int.tdiv scx 2) (iy * scy + Int.tdiv scy 2)
            o.markersize o.startcol (o.markersize + 1) o.startcol]
        | FieldType.Goal =>
          [circleChunk (ix * scx + Int.tdiv scx 2) (iy * scy + Int.tdiv scy 2)
            o.markersize o.goalcol (o.markersize + 1) o.goalcol]
        | FieldType.Normal => [])))
  pure (north.flatten ++ west.flatten ++
    [lineChunk 0 (m.size.2 * scy) (m.size.1 * scx) (m.size.2 * scy),
     lineChunk (m.size.1 * scx) 0 (m.size.1 * scx) (m.size.2 * scy)])

/-- All chunks written by `to_svg`, in emission order.  The scale
factors are computed exactly as in the source (`i32` division is
truncating, hence `Int.tdiv`). -/
def Maze.svgChunks (m : Maze) (o : SvgOptions) : Option (List String) := do
  let height0 := match o.height with
    | none => (2 + m.size.2) * o.padding
    | some h => h
  let width0 := Int.tdiv (height0 * m.size.1) m.size.2
  let scx := Int.tdiv width0 m.size.1
  let scy := Int.tdiv height0 m.size.2
  let width := scx * m.size.1
  let height := scy * m.size.2
  let rows ← (rowCells m.size.2).mapM (fun iy => m.svgRow o scx scy iy)
  pure (svgHeader width height o.padding o ++ rows.flatten ++ ["</svg>\n"])

/-- `Maze::to_svg`: the SVG document as one string; `none` models the
`anyhow` error path taken when a `get_field` lookup fails. -/
def Maze.to_svg (m : Maze) (o : SvgOptions) : Option String :=
  (m.svgChunks o).map String.join

/-- The scale factors `(scx, scy)` computed by `to_svg` (`i32`
division truncates, hence `Int.tdiv`). -/
def svgScale (m : Maze) (o : SvgOptions) : Int × Int :=
  let height0 := match o.height with
    | none => (2 + m.size.2) * o.padding
    | some hh => hh
  let width0 := Int.tdiv (height0 * m.size.1) m.size.2
  (Int.tdiv width0 m.size.1, Int.tdiv height0 m.size.2)

/-- The chunks of one `to_svg` row iteration in closed form: wall
lines for missing North passages, then wall lines for missing West
passages interleaved with the start/goal marker circles, then the two
border lines. -/
def svgRowSpec (m : Maze) (o : SvgOptions) (scx scy iy : Int) : List String :=
  ((rowCells m.size.1).map (fun ix =>
    if m.graph.containsEdge ⟨ix, iy⟩
        ((⟨ix, iy⟩ : Coordinates).next Direction.North) then ([] : List String)
    else [lineChunk (ix * scx) (iy * scy) ((ix + 1) * scx) (iy * scy)])).flatten ++
  ((rowCells m.size.1).map (fun ix =>
    (if m.graph.containsEdge ⟨ix, iy⟩
        ((⟨ix, iy⟩ : Coordinates).next Direction.West) then ([] : List String)
     else [lineChunk (ix * scx) (iy * scy) (ix * scx) ((iy + 1) * scy)]) ++
    (if m.start = ⟨ix, iy⟩ then
        [circleChunk (ix * scx + Int.tdiv scx 2) (iy * scy + Int.tdiv scy 2)
          o.markersize o.startcol (o.markersize + 1) o.startcol]
     else if m.goal = ⟨ix, iy⟩ then
        [circleChunk (ix * scx + Int.tdiv scx 2) (iy * scy + Int.tdiv scy 2)
          o.markersize o.goalcol (o.markersize + 1) o.goalcol]
     else []))).flatten ++
  [lineChunk 0 (m.size.2 * scy) (m.size.1 * scx) (m.size.2 * scy),
   lineChunk (m.size.1 * scx) 0 (m.size.1 * scx) (m.size.2 * scy)]

/-- The full `to_svg` chunk list in closed form, proved equal to the
renderer's output. -/
def svgChunksSpec (m : Maze) (o : SvgOptions) : List String :=
  svgHeader ((svgScale m o).1 * m.size.1) ((svgScale m o).2 * m.size.2) o.padding o ++
  (rowCells m.size.2).flatMap (svgRowSpec m o (svgScale m o).1 (svgScale m o).2) ++
  ["</svg>\n"]

/-- Recognises a `<line ...` element chunk by its leading characters. -/
def startsLine (s : String) : Bool :=
  match s.data with
  | '<' :: 'l' :: 'i' :: 'n' :: 'e' :: _ => true
  | _ => false

/-- Recognises a `<circle ...` element chunk by its leading characters. -/
def startsCircle (s : String) : Bool :=
  match s.data with
  | '<' :: 'c' :: 'i' :: 'r' :: 'c' :: _ => true
  | _ => false

/-- All in-bounds cells of the maze, row by row (the traversal order
of both renderers). -/
def Maze.cellsList (m : Maze) : List Coordinates :=
  (rowCells m.size.2).flatMap (fun iy =>
    (rowCells m.size.1).map (fun ix => ⟨ix, iy⟩))

/-- The number of cells whose North passage is missing. -/
def Maze.missingNorth (m : Maze) : Nat :=
  (m.cellsList.filter
    (fun c => !(m.graph.containsEdge c (c.next Direction.North)))).length

/-- The number of cells whose West passage is missing. -/
def Maze.missingWest (m : Maze) : Nat :=
  (m.cellsList.filter
    (fun c => !(m.graph.containsEdge c (c.next Direction.West)))).length

/-! ## Reachability in an edge list -/

/-- Undirected adjacency induced by an edge list: an edge in either
orientation connects its endpoints. -/
def EdgeAdj (edges : List (Coordinates × Coordinates)) (a b : Coordinates) : Prop :=
  (a, b) ∈ edges ∨ (b, a) ∈ edges

/-- Connectivity along passages: the reflexive-transitive closure of
the undirected adjacency. -/
def Reach (edges : List (Coordinates × Coordinates)) (a b : Coordinates) : Prop :=
  Relation.ReflTransGen (EdgeAdj edges) a b

/-- In-bounds test for a `width × height` grid, as used by the
modelled generators (same predicate as `are_coordinates_inside`). -/
def inGrid (w h : Int) (c : Coordinates) : Bool :=
  0 ≤ c.x && c.x < w && 0 ≤ c.y && c.y < h

/-- The finite set of all grid cells of a `w × h` maze. -/
def gridCells (w h : Int) : Finset Coordinates :=
  (Finset.range w.toNat ×ˢ Finset.range h.toNat).image
    (fun p => ⟨Int.ofNat p.1, Int.ofNat p.2⟩)

/-! ## Generator algorithms (modelled from the spec)

The four generator source files are not among the available sources;
the algorithms below are modelled from spec §4.  Randomness is
modelled by an arbitrary stream `rng : Nat → Nat`; every random draw
takes the next stream value modulo the number of candidates, so every
theorem quantifying over `rng` covers every possible random outcome. -/

/-- Modelled from the spec: the `GenerationError` taxonomy (spec §7):
`InvalidSize` when width or height is not strictly positive. -/
inductive GenerationError where
  | InvalidSize
deriving DecidableEq, Repr

/-- Modelled from the spec: the unvisited in-bounds neighbors of a
cell, enumerated in the fixed direction order (spec §4.2, §4.5:
"compute its unvisited, in-bounds neighbors"). -/
def unvisitedNeighbors (w h : Int) (visited : List Coordinates) (c : Coordinates) :
    List Coordinates :=
  (Direction.all.map (fun d => c.next d)).filter
    (fun n => inGrid w h n && !(visited.contains n))

/-- Working state of the growing-tree algorithm (spec §4.5): the
visited cells (which become the graph's nodes), the active list, and
the carved edges. -/
structure GenState where
  visited : List Coordinates
  active : List Coordinates
  edges : List (Coordinates × Coordinates)

/-- Modelled from the spec: one step of the growing-tree algorithm
(spec §4.5).  A cell is chosen from the active list by the policy
(modelled as an arbitrary random draw, which subsumes "always newest",
"always random" and any mix); if it has unvisited in-bounds neighbors
one is chosen at random and a passage is carved to it, otherwise the
cell is removed from the active list. -/
def growingTreeStep (w h : Int) (rng : Nat → Nat) (k : Nat) (s : GenState) : GenState :=
  match s.active with
  | [] => s
  | a :: rest =>
    let c := (a :: rest).get
      ⟨rng (2 * k) % (a :: rest).length, Nat.mod_lt _ (Nat.succ_pos _)⟩
    match unvisitedNeighbors w h s.visited c with
    | [] => { s with active := s.active.erase c }
    | n0 :: ns =>
      let n := (n0 :: ns).get
        ⟨rng (2 * k + 1) % (n0 :: ns).length, Nat.mod_lt _ (Nat.succ_pos _)⟩
      { visited := n :: s.visited, active := n :: s.active, edges := (c, n) :: s.edges }

/-- Modelled from the spec: the growing-tree main loop, run with
enough fuel to reach the empty active list (spec §4.5: "terminate when
the active list is empty"). -/
def growingTreeLoop (w h : Int) (rng : Nat → Nat) : Nat → Nat → GenState → GenState
  | 0, _, s => s
  | fuel + 1, k, s =>
    if s.active = [] then s
    else growingTreeLoop w h rng fuel (k + 1) (growingTreeStep w h rng k s)

/-- Modelled from the spec: `generate` for the growing-tree algorithm
family (spec §4.1, §4.5), which subsumes recursive backtracking
("always newest" policy) and the Prim's-like "always random" policy.
Fails with `InvalidSize` when width or height is not strictly
positive; otherwise grows a tree from the start cell `(0,0)` and
returns the maze with goal `(width-1, height-1)` (the convention of
spec §3, invariant 4). -/
def growingTreeGenerate (rng : Nat → Nat) (width height : Int) :
    Except GenerationError Maze :=
  if 0 < width ∧ 0 < height then
    let start : Coordinates := ⟨0, 0⟩
    let init : GenState := { visited := [start], active := [start], edges := [] }
    let final := growingTreeLoop width height rng
      (2 * (width.toNat * height.toNat)) 0 init
    Except.ok
      { graph := { nodes := final.visited, edges := final.edges },
        start := start, goal := ⟨width - 1, height - 1⟩,
        size := (width, height) }
  else
    Except.error GenerationError.InvalidSize

/-- Working state of randomized Prim's (spec §4.3): visited cells, the
frontier of (in-tree cell, not-yet-in-tree neighbor) candidate edges,
and the carved edges. -/
structure PrimState where
  visited : List Coordinates
  frontier : List (Coordinates × Coordinates)
  edges : List (Coordinates × Coordinates)

/-- Modelled from the spec: one step of randomized Prim's (spec §4.3).
A frontier candidate is drawn uniformly at random; if its target is
still unvisited the passage is carved and the target's unvisited
neighbors are enqueued, otherwise the candidate is discarded. -/
def primStep (w h : Int) (rng : Nat → Nat) (k : Nat) (s : PrimState) : PrimState :=
  match s.frontier with
  | [] => s
  | f0 :: fs =>
    let e := (f0 :: fs).get
      ⟨rng k % (f0 :: fs).length, Nat.mod_lt _ (Nat.succ_pos _)⟩
    let rest := s.frontier.erase e
    if s.visited.contains e.2 then
      { s with frontier := rest }
    else
      { visited := e.2 :: s.visited,
        frontier :=
          (unvisitedNeighbors w h (e.2 :: s.visited) e.2).map (fun u => (e.2, u)) ++ rest,
        edges := e :: s.edges }

/-- Modelled from the spec: the Prim's main loop (spec §4.3:
"terminate when the frontier is empty"). -/
def primLoop (w h : Int) (rng : Nat → Nat) : Nat → Nat → PrimState → PrimState
  | 0, _, s => s
  | fuel + 1, k, s =>
    if s.frontier = [] then s
    else primLoop w h rng fuel (k + 1) (primStep w h rng k s)

/-- Modelled from the spec: `generate` for randomized Prim's
(spec §4.1, §4.3).  The start cell is added to the tree and its
unvisited neighbors enqueued as the initial frontier. -/
def primGenerate (rng : Nat → Nat) (width height : Int) :
    Except GenerationError Maze :=
  if 0 < width ∧ 0 < height then
    let start : Coordinates := ⟨0, 0⟩
    let init : PrimState :=
      { visited := [start],
        frontier := (unvisitedNeighbors width height [start] start).map (fun u => (start, u)),
        edges := [] }
    let final := primLoop width height rng
      (5 * (width.toNat * height.toNat)) 0 init
    Except.ok
      { graph := { nodes := final.visited, edges := final.edges },
        start := start, goal := ⟨width - 1, height - 1⟩,
        size := (width, height) }
  else
    Except.error GenerationError.InvalidSize

/-- Termination measure of the growing-tree loop: twice the number of
in-bounds cells not yet visited, plus the active list length.  Every
step strictly decreases it. -/
def gtMeasure (w h : Int) (s : GenState) : Nat :=
  2 * ((gridCells w h) \ s.visited.toFinset).card + s.active.length

/-- Termination measure of the Prim's loop: five times the number of
in-bounds cells not yet visited, plus the frontier length. -/
def primMeasure (w h : Int) (s : PrimState) : Nat :=
  5 * ((gridCells w h) \ s.visited.toFinset).card + s.frontier.length

/-- Invariants of the growing-tree working state. -/
structure GTInv (w h : Int) (s : GenState) : Prop where
  nodup : s.visited.Nodup
  inb : ∀ c ∈ s.visited, inGrid w h c = true
  start_mem : (⟨0, 0⟩ : Coordinates) ∈ s.visited
  active_sub : ∀ c ∈ s.active, c ∈ s.visited
  reach : ∀ c ∈ s.visited, Reach s.edges ⟨0, 0⟩ c
  count : s.edges.length + 1 = s.visited.length
  closed : ∀ c ∈ s.visited, c ∉ s.active →
    ∀ d, inGrid w h (c.next d) = true → (c.next d) ∈ s.visited

/-- Invariants of the Prim's working state. -/
structure PInv (w h : Int) (s : PrimState) : Prop where
  nodup : s.visited.Nodup
  inb : ∀ c ∈ s.visited, inGrid w h c = true
  start_mem : (⟨0, 0⟩ : Coordinates) ∈ s.visited
  frontier_src : ∀ e ∈ s.frontier, e.1 ∈ s.visited
  frontier_tgt : ∀ e ∈ s.frontier, inGrid w h e.2 = true
  reach : ∀ c ∈ s.visited, Reach s.edges ⟨0, 0⟩ c
  count : s.edges.length + 1 = s.visited.length
  closed : ∀ c ∈ s.visited, ∀ d, inGrid w h (c.next d) = true →
    (c.next d) ∈ s.visited ∨ (c, c.next d) ∈ s.frontier

/-- The spanning-tree invariant of spec §3 restricted to what claim C1
states: one node per grid coordinate (hence `width*height` nodes),
exactly `width*height - 1` edges, and a connected passage graph. -/
def SpanningTreeInvariant (m : Maze) (w h : Int) : Prop :=
  m.size = (w, h) ∧
  m.graph.nodes.Nodup ∧
  (∀ c : Coordinates, c ∈ m.graph.nodes ↔ (0 ≤ c.x ∧ c.x < w ∧ 0 ≤ c.y ∧ c.y < h)) ∧
  m.graph.nodes.length = w.toNat * h.toNat ∧
  m.graph.edges.length = w.toNat * h.toNat - 1 ∧
  (∀ a ∈ m.graph.nodes, ∀ b ∈ m.graph.nodes, Reach m.graph.edges a b)

/-- Working state of one Eller row (spec §4.4): the set id of each
cell of the current row, and the carved edges so far. -/
structure ERow where
  ids : Nat → Nat
  edges : List (Coordinates × Coordinates)

/-- The grid cell at natural column `x` and row `y`. -/
def cellN (x y : Nat) : Coordinates := ⟨Int.ofNat x, Int.ofNat y⟩

/-- Relabels one set id into another (the union of a union-find-like
merge: every cell carrying id `a` now carries id `b`). -/
def relabel (a b : Nat) : Nat → Nat := fun v => if v = a then b else v

/-- Modelled from the spec: one adjacent-pair decision of Eller's
horizontal phase (spec §4.4 steps 2 and 4): when the pair `(x-1, x)`
is in different sets and either the row is the final one (forced
merge) or the random coin says so, carve the horizontal passage and
merge the two sets. -/
def hStep (wN r : Nat) (forced : Bool) (rng : Nat → Nat) (st : ERow) (x : Nat) : ERow :=
  if st.ids (x - 1) ≠ st.ids x ∧ (forced = true ∨ rng (2 * (r * wN + x)) % 2 = 0) then
    { ids := fun y => relabel (st.ids x) (st.ids (x - 1)) (st.ids y),
      edges := (cellN (x - 1) r, cellN x r) :: st.edges }
  else st

/-- Modelled from the spec: the left-to-right scan of adjacent pairs
of one Eller row (spec §4.4 step 2). -/
def hPhase (wN r : Nat) (forced : Bool) (rng : Nat → Nat) (st : ERow) : ERow :=
  (List.range' 1 (wN - 1)).foldl (hStep wN r forced rng) st

/-- The member columns of one set in the current row. -/
def membersOf (wN : Nat) (ids : Nat → Nat) (s : Nat) : List Nat :=
  (List.range wN).filter (fun x => ids x == s)

/-- Modelled from the spec: the randomly chosen member cell of a set
at which its guaranteed vertical passage is carved (spec §4.4 step 3). -/
def chosenOf (wN : Nat) (ids : Nat → Nat) (rng : Nat → Nat) (r s : Nat) : Nat :=
  (membersOf wN ids s).getD (rng (r * wN + s + 1) % (membersOf wN ids s).length) 0

/-- Modelled from the spec: whether a vertical passage is carved below
column `x` — always at the set's chosen member cell, and optionally
(random coin) at the other member cells (spec §4.4 step 3). -/
def carveDown (wN : Nat) (ids : Nat → Nat) (rng : Nat → Nat) (r x : Nat) : Bool :=
  x == chosenOf wN ids rng r (ids x) || rng (3 * (r * wN + x) + 2) % 2 == 0

/-- Modelled from the spec: Eller's vertical phase — carve the chosen
vertical passages into the next row, propagate the set id along each
of them, and give every other cell of the next row a fresh unique id
(spec §4.4 steps 1 and 3). -/
def vPhase (wN r : Nat) (rng : Nat → Nat) (st : ERow) (fresh : Nat) : ERow × Nat :=
  ({ ids := fun x => if carveDown wN st.ids rng r x then st.ids x else fresh + x,
     edges := (((List.range wN).filter (fun x => carveDown wN st.ids rng r x)).map
        (fun x => (cellN x r, cellN x (r + 1)))) ++ st.edges },
   fresh + wN)

/-- Modelled from the spec: Eller's row loop — every row gets a
horizontal phase; every row but the last also gets a vertical phase,
and the last row's horizontal phase force-merges (spec §4.4 step 4). -/
def ellerLoop (wN : Nat) (rng : Nat → Nat) : Nat → Nat → ERow → Nat → ERow
  | 0, _, st, _ => st
  | 1, r, st, _ => hPhase wN r true rng st
  | Nat.succ (Nat.succ n), r, st, fresh =>
    let st1 := hPhase wN r false rng st
    let p := vPhase wN r rng st1 fresh
    ellerLoop wN rng (n + 1) (r + 1) p.1 p.2

/-- Modelled from the spec: `generate` for Eller's algorithm
(spec §4.1, §4.4).  Row 0 starts with one fresh set id per cell; the
node set is the full grid. -/
def ellerGenerate (rng : Nat → Nat) (width height : Int) :
    Except GenerationError Maze :=
  if 0 < width ∧ 0 < height then
    let final := ellerLoop width.toNat rng height.toNat 0 ⟨fun x => x, []⟩ width.toNat
    Except.ok
      { graph := { nodes := (rowCells height).flatMap (fun iy =>
            (rowCells width).map (fun ix => ⟨ix, iy⟩)), edges := final.edges },
        start := ⟨0, 0⟩, goal := ⟨width - 1, height - 1⟩,
        size := (width, height) }
  else
    Except.error GenerationError.InvalidSize

/-- The number of distinct set ids of the current row. -/
def Dcount (wN : Nat) (ids : Nat → Nat) : Nat := ((Finset.range wN).image ids).card

/-- The cells processed by Eller's algorithm once row `r` has been
reached: all grid columns of the rows `0..r`. -/
def Pcell (wN r : Nat) (c : Coordinates) : Prop :=
  0 ≤ c.x ∧ c.x < (wN : Int) ∧ 0 ≤ c.y ∧ c.y ≤ (r : Int)

/-- The Eller row invariant, relative to a ghost component labelling
`L` of all processed cells: edges join equally-labelled processed
cells; the current row's labels are its ids; equal ids are connected
within the current row; every processed cell is connected to a
current-row cell of its component; the edge/set count balances; and
all current ids are below the fresh-id counter. -/
def EInvL (wN r : Nat) (st : ERow) (fresh : Nat) (L : Coordinates → Nat) : Prop :=
  (∀ e ∈ st.edges, L e.1 = L e.2) ∧
  (∀ e ∈ st.edges, e.1.y ≤ (r : Int) ∧ e.2.y ≤ (r : Int)) ∧
  (∀ x, x < wN → L (cellN x r) = st.ids x) ∧
  (∀ x y, x < wN → y < wN → st.ids x = st.ids y →
    Reach st.edges (cellN x r) (cellN y r)) ∧
  (∀ c, Pcell wN r c → ∃ x, x < wN ∧ L c = st.ids x ∧ Reach st.edges c (cellN x r)) ∧
  (st.edges.length + Dcount wN st.ids = (r + 1) * wN) ∧
  (∀ x, x < wN → st.ids x < fresh)

/-- The Eller row invariant with the labelling quantified away. -/
def EInv (wN r : Nat) (st : ERow) (fresh : Nat) : Prop :=
  ∃ L, EInvL wN r st fresh L

/-! ## Concrete example mazes -/

/-- The 3×3 maze of the crate-level documentation example
(`lib.rs` lines 25-37), reconstructed from its asserted Debug
rendering: start `(0,0)`, goal `(0,2)`, eight passages. -/
def exampleMaze : Maze :=
  { graph :=
      { nodes := [⟨0,0⟩, ⟨1,0⟩, ⟨2,0⟩, ⟨0,1⟩, ⟨1,1⟩, ⟨2,1⟩, ⟨0,2⟩, ⟨1,2⟩, ⟨2,2⟩],
        edges := [(⟨1,0⟩,⟨2,0⟩), (⟨0,0⟩,⟨0,1⟩), (⟨2,0⟩,⟨2,1⟩), (⟨0,1⟩,⟨1,1⟩),
                  (⟨1,1⟩,⟨2,1⟩), (⟨2,1⟩,⟨2,2⟩), (⟨0,2⟩,⟨1,2⟩), (⟨1,2⟩,⟨2,2⟩)] },
    start := ⟨0,0⟩, goal := ⟨0,2⟩, size := (3, 3) }

/-- A 2×2 maze whose passages form the path `(1,0)-(0,0)-(0,1)-(1,1)`. -/
def mazeA : Maze :=
  { graph :=
      { nodes := [⟨0,0⟩, ⟨1,0⟩, ⟨0,1⟩, ⟨1,1⟩],
        edges := [(⟨0,0⟩,⟨1,0⟩), (⟨0,0⟩,⟨0,1⟩), (⟨0,1⟩,⟨1,1⟩)] },
    start := ⟨0,0⟩, goal := ⟨1,1⟩, size := (2, 2) }

/-- A 2×2 maze with the same start, goal and size as `mazeA` but a
different edge set: the path `(0,1)-(0,0)-(1,0)-(1,1)`. -/
def mazeB : Maze :=
  { graph :=
      { nodes := [⟨0,0⟩, ⟨1,0⟩, ⟨0,1⟩, ⟨1,1⟩],
        edges := [(⟨0,0⟩,⟨1,0⟩), (⟨1,0⟩,⟨1,1⟩), (⟨0,0⟩,⟨0,1⟩)] },
    start := ⟨0,0⟩, goal := ⟨1,1⟩, size := (2, 2) }

/-- The node bijection witnessing that `mazeA` and `mazeB` have
isomorphic graphs: it swaps `(1,0)` with `(0,1)` and swaps `(0,1)`
with `(1,0)` (an involution exchanging the two middle path cells). -/
def isoAB : Coordinates → Coordinates :=
  fun c => if c = ⟨1,0⟩ then ⟨0,1⟩ else if c = ⟨0,1⟩ then ⟨1,0⟩ else c

/-- A concrete options record used to exercise `to_svg`. -/
def exampleOptions : SvgOptions :=
  { padding := 10, markersize := 3, height := none, strokewidth := 2,
    strokecol := "black", startcol := "red", goalcol := "green" }

/-! # Theorems -/

/-- Every direction is in the `Direction::all()` enumeration. -/
theorem Direction.mem_all (d : Direction) : d ∈ Direction.all := by
  cases d <;> simp [Direction.all]

/-- Stepping in a direction and then in its opposite returns to the
original coordinates. -/
theorem Coordinates.next_opposite (c : Coordinates) (d : Direction) :
    (c.next d).next d.opposite = c := by
  cases c
  cases d <;> simp [Coordinates.next, Direction.opposite]

/-- Stepping in any direction changes the coordinates. -/
theorem Coordinates.next_ne (c : Coordinates) (d : Direction) : c.next d ≠ c := by
  cases c
  cases d <;> simp [Coordinates.next]

/-- `contains_edge` agrees with undirected adjacency on the edge list. -/
theorem MazeGraph.containsEdge_iff (g : MazeGraph) (a b : Coordinates) :
    g.containsEdge a b = true ↔ EdgeAdj g.edges a b := by
  simp only [MazeGraph.containsEdge, List.any_eq_true, EdgeAdj]
  constructor
  · rintro ⟨e, he, hor⟩
    rcases Bool.or_eq_true_iff.mp hor with h1 | h1
    · left
      have hx := Bool.and_eq_true_iff.mp h1
      have : e = (a, b) := Prod.ext (by simpa using hx.1) (by simpa using hx.2)
      rwa [this] at he
    · right
      have hx := Bool.and_eq_true_iff.mp h1
      have : e = (b, a) := Prod.ext (by simpa using hx.1) (by simpa using hx.2)
      rwa [this] at he
  · rintro (hm | hm)
    · exact ⟨(a, b), hm, by simp⟩
    · exact ⟨(b, a), hm, by simp⟩

/-- Undirected adjacency is symmetric in its endpoints. -/
theorem MazeGraph.containsEdge_symm (g : MazeGraph) (a b : Coordinates) :
    g.containsEdge a b = g.containsEdge b a := by
  rcases hb : g.containsEdge b a with _ | _
  · rcases ha : g.containsEdge a b with _ | _
    · rfl
    · rcases (g.containsEdge_iff a b).mp ha with h | h
      · exact absurd ((g.containsEdge_iff b a).mpr (Or.inr h)) (by simp [hb])
      · exact absurd ((g.containsEdge_iff b a).mpr (Or.inl h)) (by simp [hb])
  · rcases (g.containsEdge_iff b a).mp hb with h | h
    · exact (g.containsEdge_iff a b).mpr (Or.inr h)
    · exact (g.containsEdge_iff a b).mpr (Or.inl h)

/-- The bounds check spelled out as inequalities on the components. -/
theorem Maze.inside_iff (m : Maze) (c : Coordinates) :
    m.are_coordinates_inside c = true ↔
      (0 ≤ c.x ∧ c.x < m.size.1 ∧ 0 ≤ c.y ∧ c.y < m.size.2) := by
  simp [Maze.are_coordinates_inside, and_assoc]

/-- The value `get_field` returns on an in-bounds coordinate. -/
theorem Maze.get_field_of_inside (m : Maze) (c : Coordinates)
    (h : m.are_coordinates_inside c = true) :
    m.get_field c = some (Field.new
      (if m.start = c then FieldType.Start
       else if m.goal = c then FieldType.Goal
       else FieldType.Normal)
      c
      (Direction.all.filter (fun d => m.graph.containsEdge c (c.next d)))) := by
  simp [Maze.get_field, h]

/-- Membership in the passage subset computed by `get_field` is edge
existence in the graph. -/
theorem Maze.mem_filter_passages (m : Maze) (c : Coordinates) (d : Direction) :
    d ∈ Direction.all.filter (fun d => m.graph.containsEdge c (c.next d)) ↔
      m.graph.containsEdge c (c.next d) = true := by
  simp [List.mem_filter, Direction.mem_all]

/-- A value already in the `i32` range wraps to itself. -/
theorem Coordinates.ext_xy (a b : Coordinates) (hx : a.x = b.x) (hy : a.y = b.y) :
    a = b := by
  cases a
  cases b
  simp_all

theorem wrap32_eq_self (n : Int) (h1 : -(2 ^ 31) ≤ n) (h2 : n < 2 ^ 31) :
    wrap32 n = n := by
  rw [wrap32, Int.emod_eq_of_lt (by omega) (by omega)]
  omega

/-- Counterexample to C6 as stated: at `c.x = i32::MAX` the release
build's `i32` addition wraps, so `next(East)` is not the coordinate
offset by `+1` — it lands at `i32::MIN` instead. -/
theorem claim_C6_counterexample :
    (Coordinates.new (2 ^ 31 - 1) 0).next32 Direction.East ≠
      Coordinates.new ((2 ^ 31 - 1) + 1) 0 ∧
    (Coordinates.new (2 ^ 31 - 1) 0).next32 Direction.East =
      Coordinates.new (-(2 ^ 31)) 0 := by
  constructor <;> decide

/-- C6 (amended): for every coordinate with `i32`-representable
components whose offset component also stays in the `i32` range —
which holds for every coordinate of any maze, since grid sizes are
`i32`-bounded — `Coordinates::next` is the coordinate offset by
exactly one cell: East is `x+1`, West is `x-1`, South is `y+1`, North
is `y-1`, the other component unchanged; at the range boundary the
release-build addition wraps instead.  `next` performs no bounds
check, so its result can lie outside every maze's grid. -/
theorem claim_C6_next_offsets_i32 :
    (∀ c : Coordinates, inI32 c.x → inI32 c.y → c.x + 1 < 2 ^ 31 →
      c.next32 Direction.East = ⟨c.x + 1, c.y⟩) ∧
    (∀ c : Coordinates, inI32 c.x → inI32 c.y → -(2 ^ 31) ≤ c.x - 1 →
      c.next32 Direction.West = ⟨c.x - 1, c.y⟩) ∧
    (∀ c : Coordinates, inI32 c.x → inI32 c.y → c.y + 1 < 2 ^ 31 →
      c.next32 Direction.South = ⟨c.x, c.y + 1⟩) ∧
    (∀ c : Coordinates, inI32 c.x → inI32 c.y → -(2 ^ 31) ≤ c.y - 1 →
      c.next32 Direction.North = ⟨c.x, c.y - 1⟩) ∧
    (∀ m : Maze, m.are_coordinates_inside
      ((Coordinates.new (-5) (-5)).next32 Direction.West) = false) := by
  refine ⟨fun c hx hy hb => ?_, fun c hx hy hb => ?_, fun c hx hy hb => ?_,
    fun c hx hy hb => ?_, fun m => ?_⟩
  · obtain ⟨hx1, hx2⟩ := hx
    obtain ⟨hy1, hy2⟩ := hy
    refine Coordinates.ext_xy _ _ ?_ ?_ <;> dsimp [Coordinates.next32] <;>
      rw [wrap32_eq_self _ (by omega) (by omega)] <;> omega
  · obtain ⟨hx1, hx2⟩ := hx
    obtain ⟨hy1, hy2⟩ := hy
    refine Coordinates.ext_xy _ _ ?_ ?_ <;> dsimp [Coordinates.next32] <;>
      rw [wrap32_eq_self _ (by omega) (by omega)] <;> omega
  · obtain ⟨hx1, hx2⟩ := hx
    obtain ⟨hy1, hy2⟩ := hy
    refine Coordinates.ext_xy _ _ ?_ ?_ <;> dsimp [Coordinates.next32] <;>
      rw [wrap32_eq_self _ (by omega) (by omega)] <;> omega
  · obtain ⟨hx1, hx2⟩ := hx
    obtain ⟨hy1, hy2⟩ := hy
    refine Coordinates.ext_xy _ _ ?_ ?_ <;> dsimp [Coordinates.next32] <;>
      rw [wrap32_eq_self _ (by omega) (by omega)] <;> omega
  · have hc : (Coordinates.new (-5) (-5)).next32 Direction.West =
        Coordinates.new (-6) (-5) := by decide
    rw [hc]
    simp [Maze.are_coordinates_inside, Coordinates.new]

/-- Witness for the amended C6 at concrete in-range coordinates. -/
theorem claim_C6_witness_i32 :
    (Coordinates.new 3 4).next32 Direction.East = ⟨(3 : Int) + 1, 4⟩ ∧
    (Coordinates.new 3 4).next32 Direction.North = ⟨3, (4 : Int) - 1⟩ ∧
    (Maze.new 1 1 (Coordinates.new 0 0) (Coordinates.new 0 0)).are_coordinates_inside
      ((Coordinates.new (-5) (-5)).next32 Direction.West) = false :=
  ⟨claim_C6_next_offsets_i32.1 (Coordinates.new 3 4)
      (by constructor <;> decide) (by constructor <;> decide) (by decide),
    claim_C6_next_offsets_i32.2.2.2.1 (Coordinates.new 3 4)
      (by constructor <;> decide) (by constructor <;> decide) (by decide),
    claim_C6_next_offsets_i32.2.2.2.2
      (Maze.new 1 1 (Coordinates.new 0 0) (Coordinates.new 0 0))⟩

/-- C10: when start and goal coincide, `get_field` classifies the
shared cell as `Start`, because the start comparison is made first. -/
theorem claim_C10_start_precedence (m : Maze) (_hsg : m.start = m.goal)
    (hin : m.are_coordinates_inside m.start = true) :
    ∃ f, m.get_field m.start = some f ∧ f.field_type = FieldType.Start := by
  refine ⟨_, m.get_field_of_inside m.start hin, ?_⟩
  simp [Field.new]

/-- Witness for C10 on a concrete maze whose start equals its goal. -/
theorem claim_C10_witness :
    ∃ f, (Maze.new 1 1 (Coordinates.new 0 0) (Coordinates.new 0 0)).get_field
        (Maze.new 1 1 (Coordinates.new 0 0) (Coordinates.new 0 0)).start = some f ∧
      f.field_type = FieldType.Start :=
  claim_C10_start_precedence (Maze.new 1 1 (Coordinates.new 0 0) (Coordinates.new 0 0))
    rfl (by decide)

/-- C2: `get_field` returns `none` exactly outside
`[0,width) × [0,height)`; on an in-bounds coordinate it returns a
field carrying that coordinate, whose passage set contains a direction
iff the graph has the corresponding edge, and whose type is `Start` at
the start, else `Goal` at the goal, else `Normal`.  (Totality — "never
raises" — is inherent: `get_field` is a total function into
`Option`.) -/
theorem claim_C2_get_field (m : Maze) (c : Coordinates) :
    ((m.get_field c = none) ↔
      ¬(0 ≤ c.x ∧ c.x < m.size.1 ∧ 0 ≤ c.y ∧ c.y < m.size.2)) ∧
    ((0 ≤ c.x ∧ c.x < m.size.1 ∧ 0 ≤ c.y ∧ c.y < m.size.2) →
      ∃ f, m.get_field c = some f ∧
        f.coordinates = c ∧
        (∀ d : Direction, d ∈ f.passages ↔
          m.graph.containsEdge c (c.next d) = true) ∧
        f.field_type = (if m.start = c then FieldType.Start
          else if m.goal = c then FieldType.Goal
          else FieldType.Normal)) := by
  constructor
  · rcases hin : m.are_coordinates_inside c with _ | _
    · simp only [Maze.get_field, hin, Bool.false_eq_true, if_false, true_iff]
      exact fun hb => by simp [(m.inside_iff c).mpr hb] at hin
    · rw [m.get_field_of_inside c hin]
      simpa using (m.inside_iff c).mp hin
  · intro hb
    have hin : m.are_coordinates_inside c = true := (m.inside_iff c).mpr hb
    refine ⟨_, m.get_field_of_inside c hin, rfl, fun d => m.mem_filter_passages c d, rfl⟩

/-- Witness for C2 at the documented example maze and its start cell. -/
theorem claim_C2_witness :
    (((exampleMaze.get_field (Coordinates.new 0 0) = none) ↔
      ¬(0 ≤ (Coordinates.new 0 0).x ∧ (Coordinates.new 0 0).x < exampleMaze.size.1 ∧
        0 ≤ (Coordinates.new 0 0).y ∧ (Coordinates.new 0 0).y < exampleMaze.size.2)) ∧
    ((0 ≤ (Coordinates.new 0 0).x ∧ (Coordinates.new 0 0).x < exampleMaze.size.1 ∧
        0 ≤ (Coordinates.new 0 0).y ∧ (Coordinates.new 0 0).y < exampleMaze.size.2) →
      ∃ f, exampleMaze.get_field (Coordinates.new 0 0) = some f ∧
        f.coordinates = Coordinates.new 0 0 ∧
        (∀ d : Direction, d ∈ f.passages ↔
          exampleMaze.graph.containsEdge (Coordinates.new 0 0)
            ((Coordinates.new 0 0).next d) = true) ∧
        f.field_type = (if exampleMaze.start = Coordinates.new 0 0 then FieldType.Start
          else if exampleMaze.goal = Coordinates.new 0 0 then FieldType.Goal
          else FieldType.Normal))) :=
  claim_C2_get_field exampleMaze (Coordinates.new 0 0)

/-- Counterexample to C3 as stated: in a release build `Maze::new`
performs no size check, so a `Maze` value with non-positive width
exists. -/
theorem claim_C3_counterexample :
    ¬(0 < (Maze.new 0 0 (Coordinates.new 0 0) (Coordinates.new 0 0)).size.1) := by
  decide

/-- C3 (amended): the strictly-positive-size requirement of
`Maze::new` is a `debug_assert!`; with debug assertions enabled,
construction fails exactly when the width or height is non-positive,
and any value it does produce has strictly positive size. -/
theorem claim_C3_debug_assert (w h : Int) (s g : Coordinates) :
    (Maze.newDebug w h s g = none ↔ w ≤ 0 ∨ h ≤ 0) ∧
    (∀ m, Maze.newDebug w h s g = some m →
      0 < m.size.1 ∧ 0 < m.size.2 ∧ m.size = (w, h)) := by
  constructor
  · rw [Maze.newDebug]
    by_cases hc : 0 < w ∧ 0 < h
    · rw [if_pos hc]
      exact iff_of_false (by simp) (by omega)
    · rw [if_neg hc]
      exact iff_of_true rfl (by omega)
  · intro m hm
    rw [Maze.newDebug] at hm
    by_cases hc : 0 < w ∧ 0 < h
    · rw [if_pos hc] at hm
      obtain rfl : Maze.new w h s g = m := Option.some.inj hm
      exact ⟨hc.1, hc.2, rfl⟩
    · rw [if_neg hc] at hm
      exact absurd hm (by simp)

/-- Witness for the amended C3 at concrete sizes. -/
theorem claim_C3_witness :
    ((Maze.newDebug 3 2 (Coordinates.new 0 0) (Coordinates.new 1 1) = none ↔
      (3 : Int) ≤ 0 ∨ (2 : Int) ≤ 0) ∧
    (∀ m, Maze.newDebug 3 2 (Coordinates.new 0 0) (Coordinates.new 1 1) = some m →
      0 < m.size.1 ∧ 0 < m.size.2 ∧ m.size = (3, 2))) :=
  claim_C3_debug_assert 3 2 (Coordinates.new 0 0) (Coordinates.new 1 1)

/-- C4: maze equality is equal start, goal and size plus graph
isomorphism; concretely, `mazeA` and `mazeB` share start, goal and
size, have different edge sets, yet compare equal — so equality is
strictly weaker than edge-for-edge identity. -/
theorem claim_C4_equality_iso :
    (∀ m₁ m₂ : Maze, Maze.eq m₁ m₂ ↔
      (m₁.start = m₂.start ∧ m₁.goal = m₂.goal ∧ m₁.size = m₂.size ∧
        MazeGraph.IsIsomorphic m₁.graph m₂.graph)) ∧
    Maze.eq mazeA mazeB ∧
    mazeA.graph.edges ≠ mazeB.graph.edges ∧
    mazeA.start = mazeB.start ∧ mazeA.goal = mazeB.goal ∧ mazeA.size = mazeB.size := by
  refine ⟨fun m₁ m₂ => Iff.rfl, ⟨rfl, rfl, rfl, isoAB, isoAB, ?_, ?_, ?_⟩,
    by decide, rfl, rfl, rfl⟩
  · decide
  · decide
  · decide

/-- C8: passage symmetry — when both a cell and its neighbor in
direction `d` are in bounds, the cell lists a passage toward `d` iff
the neighbor lists a passage toward the opposite direction. -/
theorem claim_C8_passage_symmetry (m : Maze) (c : Coordinates) (d : Direction)
    (h₁ : m.are_coordinates_inside c = true)
    (h₂ : m.are_coordinates_inside (c.next d) = true) :
    ∃ f g, m.get_field c = some f ∧ m.get_field (c.next d) = some g ∧
      (d ∈ f.passages ↔ d.opposite ∈ g.passages) := by
  refine ⟨_, _, m.get_field_of_inside c h₁, m.get_field_of_inside (c.next d) h₂, ?_⟩
  rw [Field.new, Field.new]
  rw [m.mem_filter_passages c d, m.mem_filter_passages (c.next d) d.opposite]
  rw [Coordinates.next_opposite c d]
  rw [m.graph.containsEdge_symm (c.next d) c]

/-- Witness for C8 at the documented example maze. -/
theorem claim_C8_witness :
    ∃ f g, exampleMaze.get_field (Coordinates.new 0 0) = some f ∧
      exampleMaze.get_field ((Coordinates.new 0 0).next Direction.South) = some g ∧
      (Direction.South ∈ f.passages ↔ Direction.South.opposite ∈ g.passages) :=
  claim_C8_passage_symmetry exampleMaze (Coordinates.new 0 0) Direction.South
    (by decide) (by decide)

theorem mem_rowCells {n a : Int} : a ∈ rowCells n ↔ 0 ≤ a ∧ a < n := by
  simp only [rowCells, List.mem_map, List.mem_range, Int.ofNat_eq_coe]
  constructor
  · rintro ⟨k, hk, rfl⟩
    omega
  · intro hb
    exact ⟨a.toNat, by omega, by omega⟩

theorem nodup_rowCells (n : Int) : (rowCells n).Nodup :=
  (List.nodup_range _).map (fun _ _ hab => Int.ofNat.inj hab)

theorem mapM_eq_map {α β : Type} (f : α → Option β) (g : α → β) :
    ∀ l : List α, (∀ a ∈ l, f a = some (g a)) → l.mapM f = some (l.map g) := by
  intro l
  induction l with
  | nil => intro _; rfl
  | cons a l ih =>
    intro hall
    simp only [List.mapM_cons, List.map_cons, hall a (by simp),
      ih (fun x hx => hall x (by simp [hx]))]
    rfl

theorem hasPassage_new (t : FieldType) (m : Maze) (c : Coordinates) (d : Direction) :
    (Field.new t c
      (Direction.all.filter (fun d => m.graph.containsEdge c (c.next d)))).has_passage d
      = m.graph.containsEdge c (c.next d) := by
  rw [Bool.eq_iff_iff]
  simp [Field.has_passage, Field.new, List.mem_filter, Direction.mem_all]

theorem topLine_eq (m : Maze) (iy : Int) (h0 : 0 ≤ iy) (h1 : iy < m.size.2) :
    m.topLine iy = some (String.join ((rowCells m.size.1).map (fun ix =>
      "·" ++ (if m.graph.containsEdge ⟨ix, iy⟩
          ((⟨ix, iy⟩ : Coordinates).next Direction.North) then " " else "-"))) ++ "·\n") := by
  unfold Maze.topLine
  rw [mapM_eq_map _ (fun ix => "·" ++ (if m.graph.containsEdge ⟨ix, iy⟩
      ((⟨ix, iy⟩ : Coordinates).next Direction.North) then " " else "-")) _
    (fun ix hix => by
      have hb := mem_rowCells.mp hix
      have hin : m.are_coordinates_inside ⟨ix, iy⟩ = true :=
        (m.inside_iff ⟨ix, iy⟩).mpr ⟨hb.1, hb.2, h0, h1⟩
      simp only [m.get_field_of_inside ⟨ix, iy⟩ hin, Option.bind_eq_bind, Option.some_bind,
        hasPassage_new]
      rfl)]
  rfl

theorem midLine_eq (m : Maze) (iy : Int) (h0 : 0 ≤ iy) (h1 : iy < m.size.2) :
    m.midLine iy = some (String.join ((rowCells m.size.1).map (fun ix =>
      (if m.graph.containsEdge ⟨ix, iy⟩
          ((⟨ix, iy⟩ : Coordinates).next Direction.West) then " " else "|") ++
      (if m.start = ⟨ix, iy⟩ then "S"
       else if m.goal = ⟨ix, iy⟩ then "G" else " "))) ++ "|\n") := by
  unfold Maze.midLine
  rw [mapM_eq_map _ (fun ix =>
      (if m.graph.containsEdge ⟨ix, iy⟩
          ((⟨ix, iy⟩ : Coordinates).next Direction.West) then " " else "|") ++
      (if m.start = ⟨ix, iy⟩ then "S"
       else if m.goal = ⟨ix, iy⟩ then "G" else " ")) _
    (fun ix hix => by
      have hb := mem_rowCells.mp hix
      have hin : m.are_coordinates_inside ⟨ix, iy⟩ = true :=
        (m.inside_iff ⟨ix, iy⟩).mpr ⟨hb.1, hb.2, h0, h1⟩
      simp only [m.get_field_of_inside ⟨ix, iy⟩ hin, Option.bind_eq_bind, Option.some_bind,
        hasPassage_new]
      dsimp only [Field.new]
      split_ifs <;> rfl)]
  rfl

theorem flatMap_three_len (F G : Int → String) (t : Int) (bt : String) :
    ∀ l : List Int,
      (l.flatMap (fun iy => [F iy, G iy] ++ if iy = t then [bt] else [])).length =
        2 * l.length + l.count t := by
  intro l
  induction l with
  | nil => rfl
  | cons a l ih =>
    rw [List.flatMap_cons, List.length_append, ih]
    by_cases ha : a = t
    · rw [if_pos ha]
      simp [List.count_cons, ha]
      omega
    · rw [if_neg ha]
      simp [List.count_cons, ha]
      omega

theorem debugLines_eq (m : Maze) : m.debugLines = some (debugSpecLines m) := by
  unfold Maze.debugLines
  rw [mapM_eq_map _ (fun iy =>
      ([String.join ((rowCells m.size.1).map (fun ix =>
          "·" ++ (if m.graph.containsEdge ⟨ix, iy⟩
              ((⟨ix, iy⟩ : Coordinates).next Direction.North) then " " else "-"))) ++ "·\n",
        String.join ((rowCells m.size.1).map (fun ix =>
          (if m.graph.containsEdge ⟨ix, iy⟩
              ((⟨ix, iy⟩ : Coordinates).next Direction.West) then " " else "|") ++
          (if m.start = ⟨ix, iy⟩ then "S"
           else if m.goal = ⟨ix, iy⟩ then "G" else " "))) ++ "|\n"] ++
        (if iy = m.size.2 - 1 then [m.bottomLine] else []))) _
    (fun iy hiy => by
      have hb := mem_rowCells.mp hiy
      rw [topLine_eq m iy hb.1 hb.2]
      simp only [Option.bind_eq_bind, Option.some_bind]
      rw [midLine_eq m iy hb.1 hb.2]
      simp only [Option.some_bind]
      by_cases hl : iy = m.size.2 - 1 <;> simp [hl])]
  simp only [Option.bind_eq_bind, Option.some_bind, debugSpecLines, List.flatMap]
  rfl

theorem debugSpecLines_length (m : Maze) (hh : 0 < m.size.2) :
    (debugSpecLines m).length = 2 * m.size.2.toNat + 1 := by
  unfold debugSpecLines
  rw [flatMap_three_len]
  have hcnt : (rowCells m.size.2).count (m.size.2 - 1) = 1 :=
    List.count_eq_one_of_mem (nodup_rowCells _) (mem_rowCells.mpr ⟨by omega, by omega⟩)
  have hlen : (rowCells m.size.2).length = m.size.2.toNat := by
    simp [rowCells]
  omega

theorem claim_C5_text_rendering :
    (∀ m : Maze, 0 < m.size.2 →
      m.debugLines = some (debugSpecLines m) ∧
      m.debugFmt = some (String.join (debugSpecLines m)) ∧
      (debugSpecLines m).length = 2 * m.size.2.toNat + 1) ∧
    exampleMaze.debugFmt =
      some "·-·-·-·\n|S|   |\n· ·-· ·\n|     |\n·-·-· ·\n|G    |\n·-·-·-·\n" := by
  constructor
  · intro m hh
    refine ⟨debugLines_eq m, ?_, debugSpecLines_length m hh⟩
    rw [Maze.debugFmt, debugLines_eq m]
    rfl
  · decide

theorem claim_C5_witness :
    exampleMaze.debugLines = some (debugSpecLines exampleMaze) ∧
    exampleMaze.debugFmt = some (String.join (debugSpecLines exampleMaze)) ∧
    (debugSpecLines exampleMaze).length = 2 * exampleMaze.size.2.toNat + 1 :=
  claim_C5_text_rendering.1 exampleMaze (by decide)

theorem claim_C9_debug_total (m : Maze) (_hw : 0 < m.size.1) (_hh : 0 < m.size.2) :
    (∀ iy ∈ rowCells m.size.2, ∀ ix ∈ rowCells m.size.1,
      ∃ f, m.get_field ⟨ix, iy⟩ = some f) ∧
    ∃ s, m.debugFmt = some s := by
  constructor
  · intro iy hiy ix hix
    have hby := mem_rowCells.mp hiy
    have hbx := mem_rowCells.mp hix
    exact ⟨_, m.get_field_of_inside ⟨ix, iy⟩
      ((m.inside_iff ⟨ix, iy⟩).mpr ⟨hbx.1, hbx.2, hby.1, hby.2⟩)⟩
  · refine ⟨String.join (debugSpecLines m), ?_⟩
    rw [Maze.debugFmt, debugLines_eq m]
    rfl

theorem claim_C9_witness :
    (∀ iy ∈ rowCells exampleMaze.size.2, ∀ ix ∈ rowCells exampleMaze.size.1,
      ∃ f, exampleMaze.get_field ⟨ix, iy⟩ = some f) ∧
    ∃ s, exampleMaze.debugFmt = some s :=
  claim_C9_debug_total exampleMaze (by decide) (by decide)

theorem svgRow_eq (m : Maze) (o : SvgOptions) (scx scy iy : Int)
    (h0 : 0 ≤ iy) (h1 : iy < m.size.2) :
    m.svgRow o scx scy iy = some (svgRowSpec m o scx scy iy) := by
  unfold Maze.svgRow
  rw [mapM_eq_map _ (fun ix =>
      if m.graph.containsEdge ⟨ix, iy⟩
          ((⟨ix, iy⟩ : Coordinates).next Direction.North) then ([] : List String)
      else [lineChunk (ix * scx) (iy * scy) ((ix + 1) * scx) (iy * scy)]) _
    (fun ix hix => by
      have hb := mem_rowCells.mp hix
      have hin : m.are_coordinates_inside ⟨ix, iy⟩ = true :=
        (m.inside_iff ⟨ix, iy⟩).mpr ⟨hb.1, hb.2, h0, h1⟩
      simp only [m.get_field_of_inside ⟨ix, iy⟩ hin, Option.bind_eq_bind, Option.some_bind,
        hasPassage_new]
      rfl)]
  simp only [Option.bind_eq_bind, Option.some_bind]
  rw [mapM_eq_map _ (fun ix =>
      (if m.graph.containsEdge ⟨ix, iy⟩
          ((⟨ix, iy⟩ : Coordinates).next Direction.West) then ([] : List String)
       else [lineChunk (ix * scx) (iy * scy) (ix * scx) ((iy + 1) * scy)]) ++
      (if m.start = ⟨ix, iy⟩ then
          [circleChunk (ix * scx + Int.tdiv scx 2) (iy * scy + Int.tdiv scy 2)
            o.markersize o.startcol (o.markersize + 1) o.startcol]
       else if m.goal = ⟨ix, iy⟩ then
          [circleChunk (ix * scx + Int.tdiv scx 2) (iy * scy + Int.tdiv scy 2)
            o.markersize o.goalcol (o.markersize + 1) o.goalcol]
       else [])) _
    (fun ix hix => by
      have hb := mem_rowCells.mp hix
      have hin : m.are_coordinates_inside ⟨ix, iy⟩ = true :=
        (m.inside_iff ⟨ix, iy⟩).mpr ⟨hb.1, hb.2, h0, h1⟩
      simp only [m.get_field_of_inside ⟨ix, iy⟩ hin, Option.bind_eq_bind, Option.some_bind,
        hasPassage_new]
      dsimp only [Field.new]
      split_ifs <;> rfl)]
  simp only [Option.some_bind]
  rfl

theorem svgChunks_eq (m : Maze) (o : SvgOptions) :
    m.svgChunks o = some (svgChunksSpec m o) := by
  simp only [Maze.svgChunks]
  rw [mapM_eq_map _ (fun iy => svgRowSpec m o (svgScale m o).1 (svgScale m o).2 iy) _
    (fun iy hiy => by
      have hb := mem_rowCells.mp hiy
      exact svgRow_eq m o _ _ iy hb.1 hb.2)]
  simp only [Option.bind_eq_bind, Option.some_bind, svgChunksSpec, List.flatMap]
  rfl

theorem startsLine_lineChunk (a b c d : Int) : startsLine (lineChunk a b c d) = true := rfl

theorem startsCircle_lineChunk (a b c d : Int) : startsCircle (lineChunk a b c d) = false := rfl

theorem startsLine_circleChunk (a b c : Int) (col : String) (e : Int) (fl : String) :
    startsLine (circleChunk a b c col e fl) = false := rfl

theorem startsCircle_circleChunk (a b c : Int) (col : String) (e : Int) (fl : String) :
    startsCircle (circleChunk a b c col e fl) = true := rfl

theorem header_counts (w h p : Int) (o : SvgOptions) :
    (svgHeader w h p o).countP startsLine = 0 ∧
    (svgHeader w h p o).countP startsCircle = 0 := ⟨rfl, rfl⟩

theorem countP_flatten {α : Type} (p : α → Bool) :
    ∀ L : List (List α), L.flatten.countP p = (L.map (fun l => l.countP p)).sum := by
  intro L
  induction L with
  | nil => rfl
  | cons a L ih => simp [List.countP_append, ih]

theorem sum_map_ite01 {α : Type} (f : α → Nat) (p : α → Bool)
    (hp : ∀ a, f a = if p a then 1 else 0) :
    ∀ l : List α, (l.map f).sum = l.countP p := by
  intro l
  induction l with
  | nil => rfl
  | cons a l ih =>
    rcases hpa : p a with _ | _ <;>
      simp [List.countP_cons, hp a, hpa, ih, Nat.add_comm]

theorem sum_map_add_split {α : Type} (f g : α → Nat) :
    ∀ l : List α, (l.map (fun a => f a + g a)).sum = (l.map f).sum + (l.map g).sum := by
  intro l
  induction l with
  | nil => rfl
  | cons a l ih => simp [ih]; omega

theorem sum_markers (s g : Coordinates) (hsg : s ≠ g) :
    ∀ l : List Coordinates,
      (l.map (fun c => if s = c then 1 else if g = c then 1 else 0)).sum =
        l.count s + l.count g := by
  intro l
  induction l with
  | nil => rfl
  | cons a l ih =>
    rw [List.map_cons, List.sum_cons, ih, List.count_cons, List.count_cons]
    by_cases hs : s = a
    · have hg : ¬(g = a) := fun hga => hsg (hga ▸ hs)
      have hg2 : ¬(a = g) := fun hx => hg hx.symm
      simp [beq_iff_eq, hs, hg2]
      omega
    · by_cases hg : g = a
      · have hs2 : ¬(a = s) := fun hx => hs hx.symm
        have hgs : ¬(g = s) := fun hx => hsg hx.symm
        simp [beq_iff_eq, hs, hg.symm, hs2, hgs]
        omega
      · have hs2 : ¬(a = s) := fun hx => hs hx.symm
        have hg2 : ¬(a = g) := fun hx => hg hx.symm
        simp [beq_iff_eq, hs, hg, hs2, hg2]

theorem svgRowSpec_countLine (m : Maze) (o : SvgOptions) (scx scy iy : Int) :
    (svgRowSpec m o scx scy iy).countP startsLine =
      ((rowCells m.size.1).map (fun ix => (⟨ix, iy⟩ : Coordinates))).countP
        (fun c => !(m.graph.containsEdge c (c.next Direction.North))) +
      ((rowCells m.size.1).map (fun ix => (⟨ix, iy⟩ : Coordinates))).countP
        (fun c => !(m.graph.containsEdge c (c.next Direction.West))) + 2 := by
  unfold svgRowSpec
  rw [List.countP_append, List.countP_append, countP_flatten, countP_flatten,
    List.map_map, List.map_map, List.countP_map, List.countP_map]
  rw [sum_map_ite01 _ (fun ix =>
      !(m.graph.containsEdge ⟨ix, iy⟩ ((⟨ix, iy⟩ : Coordinates).next Direction.North)))
    (fun ix => by
      rcases hce : m.graph.containsEdge ⟨ix, iy⟩
        ((⟨ix, iy⟩ : Coordinates).next Direction.North) with _ | _ <;>
        simp [Function.comp, hce, startsLine_lineChunk])]
  rw [sum_map_ite01 _ (fun ix =>
      !(m.graph.containsEdge ⟨ix, iy⟩ ((⟨ix, iy⟩ : Coordinates).next Direction.West)))
    (fun ix => by
      rcases hce : m.graph.containsEdge ⟨ix, iy⟩
        ((⟨ix, iy⟩ : Coordinates).next Direction.West) with _ | _ <;>
      by_cases hst : m.start = (⟨ix, iy⟩ : Coordinates) <;>
      by_cases hgl : m.goal = (⟨ix, iy⟩ : Coordinates) <;>
        simp [Function.comp, hce, hst, hgl, List.countP_append, List.countP_cons,
          startsLine_lineChunk, startsLine_circleChunk])]
  rfl

theorem svgRowSpec_countCircle (m : Maze) (o : SvgOptions) (scx scy iy : Int) :
    (svgRowSpec m o scx scy iy).countP startsCircle =
      (((rowCells m.size.1).map (fun ix => (⟨ix, iy⟩ : Coordinates))).map
        (fun c => if m.start = c then 1 else if m.goal = c then 1 else 0)).sum := by
  unfold svgRowSpec
  rw [List.countP_append, List.countP_append, countP_flatten, countP_flatten,
    List.map_map, List.map_map, List.map_map]
  have hN : ∀ ix : Int, ((fun l => List.countP startsCircle l) ∘ (fun ix =>
      if m.graph.containsEdge ⟨ix, iy⟩
          ((⟨ix, iy⟩ : Coordinates).next Direction.North) then ([] : List String)
      else [lineChunk (ix * scx) (iy * scy) ((ix + 1) * scx) (iy * scy)])) ix = 0 := by
    intro ix
    rcases hce : m.graph.containsEdge ⟨ix, iy⟩
      ((⟨ix, iy⟩ : Coordinates).next Direction.North) with _ | _ <;>
      simp [Function.comp, hce, startsCircle_lineChunk]
  rw [List.map_congr_left (fun ix _ => hN ix)]
  have hW : ∀ ix : Int, ((fun l => List.countP startsCircle l) ∘ (fun ix =>
      (if m.graph.containsEdge ⟨ix, iy⟩
          ((⟨ix, iy⟩ : Coordinates).next Direction.West) then ([] : List String)
       else [lineChunk (ix * scx) (iy * scy) (ix * scx) ((iy + 1) * scy)]) ++
      (if m.start = ⟨ix, iy⟩ then
          [circleChunk (ix * scx + Int.tdiv scx 2) (iy * scy + Int.tdiv scy 2)
            o.markersize o.startcol (o.markersize + 1) o.startcol]
       else if m.goal = ⟨ix, iy⟩ then
          [circleChunk (ix * scx + Int.tdiv scx 2) (iy * scy + Int.tdiv scy 2)
            o.markersize o.goalcol (o.markersize + 1) o.goalcol]
       else []))) ix =
      ((fun c => if m.start = c then 1 else if m.goal = c then 1 else 0) ∘
        (fun ix => (⟨ix, iy⟩ : Coordinates))) ix := by
    intro ix
    rcases hce : m.graph.containsEdge ⟨ix, iy⟩
      ((⟨ix, iy⟩ : Coordinates).next Direction.West) with _ | _ <;>
    by_cases hst : m.start = (⟨ix, iy⟩ : Coordinates) <;>
    by_cases hgl : m.goal = (⟨ix, iy⟩ : Coordinates) <;>
      simp [Function.comp, hce, hst, hgl, List.countP_append, List.countP_cons,
        startsCircle_lineChunk, startsCircle_circleChunk]
  rw [List.map_congr_left (fun ix _ => hW ix)]
  simp [List.countP_cons, startsCircle_lineChunk]

theorem countP_flatMap {α β : Type} (p : β → Bool) (f : α → List β) :
    ∀ l : List α, (l.flatMap f).countP p = (l.map (fun a => (f a).countP p)).sum := by
  intro l
  induction l with
  | nil => rfl
  | cons a l ih => simp [List.flatMap_cons, List.countP_append, ih]

theorem sum_map_flatMap {α β : Type} (g : β → Nat) (f : α → List β) :
    ∀ l : List α, ((l.flatMap f).map g).sum = (l.map (fun a => ((f a).map g).sum)).sum := by
  intro l
  induction l with
  | nil => rfl
  | cons a l ih => simp [List.flatMap_cons, ih]

theorem sum_map_addconst {α : Type} (F G : α → Nat) :
    ∀ l : List α, (l.map (fun a => F a + G a + 2)).sum =
      (l.map F).sum + (l.map G).sum + 2 * l.length := by
  intro l
  induction l with
  | nil => rfl
  | cons a l ih =>
    simp [ih]
    omega

theorem nodup_rows (w : Int) : ∀ ys : List Int, ys.Nodup →
    (ys.flatMap (fun iy => (rowCells w).map (fun ix => (⟨ix, iy⟩ : Coordinates)))).Nodup := by
  intro ys
  induction ys with
  | nil => intro _; exact List.nodup_nil
  | cons y ys ih =>
    intro hn
    rw [List.flatMap_cons]
    apply List.Nodup.append
    · exact (nodup_rowCells w).map
        (fun a b hab => by
          have := Coordinates.mk.injEq a y b y
          rw [this] at hab
          exact hab.1)
    · exact ih (List.nodup_cons.mp hn).2
    · intro c hc1 hc2
      rcases List.mem_map.mp hc1 with ⟨ix, _, rfl⟩
      rcases List.mem_flatMap.mp hc2 with ⟨iy, hiy, hc⟩
      rcases List.mem_map.mp hc with ⟨ix2, _, hceq⟩
      have hy : iy = y := by
        have := Coordinates.mk.injEq ix2 iy ix y
        rw [this] at hceq
        exact hceq.2
      exact (List.nodup_cons.mp hn).1 (hy ▸ hiy)

theorem nodup_cellsList (m : Maze) : m.cellsList.Nodup :=
  nodup_rows m.size.1 (rowCells m.size.2) (nodup_rowCells _)

theorem mem_cellsList (m : Maze) (c : Coordinates) :
    c ∈ m.cellsList ↔ (0 ≤ c.x ∧ c.x < m.size.1 ∧ 0 ≤ c.y ∧ c.y < m.size.2) := by
  simp only [Maze.cellsList, List.mem_flatMap, List.mem_map, mem_rowCells]
  constructor
  · rintro ⟨iy, hy, ix, hx, rfl⟩
    exact ⟨hx.1, hx.2, hy.1, hy.2⟩
  · rintro ⟨h1, h2, h3, h4⟩
    exact ⟨c.y, ⟨h3, h4⟩, c.x, ⟨h1, h2⟩, rfl⟩

theorem svgSpec_countLine (m : Maze) (o : SvgOptions) :
    (svgChunksSpec m o).countP startsLine =
      m.missingNorth + m.missingWest + 2 * m.size.2.toNat := by
  unfold svgChunksSpec
  rw [List.countP_append, List.countP_append, (header_counts _ _ _ o).1, countP_flatMap]
  rw [List.map_congr_left (fun iy _ =>
    svgRowSpec_countLine m o (svgScale m o).1 (svgScale m o).2 iy)]
  rw [sum_map_addconst]
  have htail : List.countP startsLine ["</svg>\n"] = 0 := rfl
  rw [htail]
  have hN : ((rowCells m.size.2).map (fun iy =>
      ((rowCells m.size.1).map (fun ix => (⟨ix, iy⟩ : Coordinates))).countP
        (fun c => !(m.graph.containsEdge c (c.next Direction.North))))).sum =
      m.missingNorth := by
    rw [Maze.missingNorth, ← List.countP_eq_length_filter, Maze.cellsList, countP_flatMap]
  have hW : ((rowCells m.size.2).map (fun iy =>
      ((rowCells m.size.1).map (fun ix => (⟨ix, iy⟩ : Coordinates))).countP
        (fun c => !(m.graph.containsEdge c (c.next Direction.West))))).sum =
      m.missingWest := by
    rw [Maze.missingWest, ← List.countP_eq_length_filter, Maze.cellsList, countP_flatMap]
  have hlen : (rowCells m.size.2).length = m.size.2.toNat := by simp [rowCells]
  rw [hN, hW, hlen]
  omega

theorem svgSpec_countCircle (m : Maze) (o : SvgOptions)
    (hs : m.are_coordinates_inside m.start = true)
    (hg : m.are_coordinates_inside m.goal = true)
    (hsg : m.start ≠ m.goal) :
    (svgChunksSpec m o).countP startsCircle = 2 := by
  unfold svgChunksSpec
  rw [List.countP_append, List.countP_append, (header_counts _ _ _ o).2, countP_flatMap]
  rw [List.map_congr_left (fun iy _ =>
    svgRowSpec_countCircle m o (svgScale m o).1 (svgScale m o).2 iy)]
  have hsum := sum_map_flatMap
    (fun c => if m.start = c then 1 else if m.goal = c then 1 else 0)
    (fun iy => (rowCells m.size.1).map (fun ix => (⟨ix, iy⟩ : Coordinates)))
    (rowCells m.size.2)
  rw [← hsum]
  have hmk := sum_markers m.start m.goal hsg m.cellsList
  rw [Maze.cellsList] at hmk
  rw [hmk]
  have hcs : (m.cellsList).count m.start = 1 :=
    List.count_eq_one_of_mem (nodup_cellsList m)
      ((mem_cellsList m m.start).mpr (by
        have := (m.inside_iff m.start).mp hs
        exact this))
  have hcg : (m.cellsList).count m.goal = 1 :=
    List.count_eq_one_of_mem (nodup_cellsList m)
      ((mem_cellsList m m.goal).mpr (by
        have := (m.inside_iff m.goal).mp hg
        exact this))
  rw [Maze.cellsList] at hcs hcg
  rw [hcs, hcg]
  rfl

theorem claim_C7_svg_rendering (m : Maze) (o : SvgOptions)
    (_hw : 0 < m.size.1) (_hh : 0 < m.size.2)
    (hs : m.are_coordinates_inside m.start = true)
    (hg : m.are_coordinates_inside m.goal = true)
    (hsg : m.start ≠ m.goal) :
    ∃ ch, m.svgChunks o = some ch ∧
      m.to_svg o = some (String.join ch) ∧
      ch.countP startsLine = m.missingNorth + m.missingWest + 2 * m.size.2.toNat ∧
      ch.countP startsCircle = 2 := by
  refine ⟨svgChunksSpec m o, svgChunks_eq m o, ?_,
    svgSpec_countLine m o, svgSpec_countCircle m o hs hg hsg⟩
  rw [Maze.to_svg, svgChunks_eq m o]
  rfl

theorem claim_C7_witness :
    ∃ ch, exampleMaze.svgChunks exampleOptions = some ch ∧
      exampleMaze.to_svg exampleOptions = some (String.join ch) ∧
      ch.countP startsLine =
        exampleMaze.missingNorth + exampleMaze.missingWest + 2 * exampleMaze.size.2.toNat ∧
      ch.countP startsCircle = 2 :=
  claim_C7_svg_rendering exampleMaze exampleOptions (by decide) (by decide)
    (by decide) (by decide) (by decide)

theorem inGrid_iff (w h : Int) (c : Coordinates) :
    inGrid w h c = true ↔ (0 ≤ c.x ∧ c.x < w ∧ 0 ≤ c.y ∧ c.y < h) := by
  simp [inGrid, and_assoc]

theorem mem_gridCells (w h : Int) (c : Coordinates) :
    c ∈ gridCells w h ↔ inGrid w h c = true := by
  rw [inGrid_iff]
  simp only [gridCells, Finset.mem_image, Finset.mem_product, Finset.mem_range]
  constructor
  · rintro ⟨⟨a, b⟩, ⟨ha, hb⟩, rfl⟩
    simp only [Int.ofNat_eq_coe]
    omega
  · rintro ⟨h1, h2, h3, h4⟩
    refine ⟨⟨c.x.toNat, c.y.toNat⟩, ⟨by omega, by omega⟩, ?_⟩
    refine Coordinates.ext_xy _ _ ?_ ?_ <;> simp <;> omega

theorem card_gridCells (w h : Int) : (gridCells w h).card = w.toNat * h.toNat := by
  rw [gridCells, Finset.card_image_of_injOn, Finset.card_product, Finset.card_range,
    Finset.card_range]
  intro p _ q _ hpq
  rw [Coordinates.mk.injEq] at hpq
  exact Prod.ext (Int.ofNat.inj hpq.1) (Int.ofNat.inj hpq.2)

theorem EdgeAdj_symmetric (edges : List (Coordinates × Coordinates)) :
    Symmetric (EdgeAdj edges) := fun _ _ hab => Or.symm hab

theorem Reach.mono {edges edges' : List (Coordinates × Coordinates)}
    (hsub : ∀ e ∈ edges, e ∈ edges') {a b : Coordinates}
    (hr : Reach edges a b) : Reach edges' a b :=
  Relation.ReflTransGen.mono
    (fun _ _ hadj => hadj.imp (fun hm => hsub _ hm) (fun hm => hsub _ hm)) hr

theorem Reach.cons {e : Coordinates × Coordinates}
    {edges : List (Coordinates × Coordinates)} {a b : Coordinates}
    (hr : Reach edges a b) : Reach (e :: edges) a b :=
  Reach.mono (fun _ hm => List.mem_cons_of_mem e hm) hr

theorem Reach.symm {edges : List (Coordinates × Coordinates)} {a b : Coordinates}
    (hr : Reach edges a b) : Reach edges b a :=
  Relation.ReflTransGen.symmetric (EdgeAdj_symmetric edges) hr

theorem Reach.step {edges : List (Coordinates × Coordinates)} {a b : Coordinates}
    (hm : (a, b) ∈ edges) : Reach edges a b :=
  Relation.ReflTransGen.single (Or.inl hm)

theorem unvisitedNeighbors_mem {w h : Int} {visited : List Coordinates}
    {c n : Coordinates} (hn : n ∈ unvisitedNeighbors w h visited c) :
    inGrid w h n = true ∧ n ∉ visited ∧ ∃ d, n = c.next d := by
  rw [unvisitedNeighbors] at hn
  have hmf := List.mem_filter.mp hn
  rcases List.mem_map.mp hmf.1 with ⟨d, _, rfl⟩
  have hp := hmf.2
  rw [Bool.and_eq_true] at hp
  refine ⟨hp.1, ?_, d, rfl⟩
  intro hmem
  have := hp.2
  simp [hmem] at this

theorem unvisitedNeighbors_nil {w h : Int} {visited : List Coordinates}
    {c : Coordinates} (hnil : unvisitedNeighbors w h visited c = []) :
    ∀ d, inGrid w h (c.next d) = true → c.next d ∈ visited := by
  intro d hd
  by_contra hnm
  have hmem : c.next d ∈ unvisitedNeighbors w h visited c := by
    rw [unvisitedNeighbors]
    refine List.mem_filter.mpr ⟨List.mem_map.mpr ⟨d, Direction.mem_all d, rfl⟩, ?_⟩
    rw [Bool.and_eq_true]
    refine ⟨hd, ?_⟩
    simp [hnm]
  rw [hnil] at hmem
  exact List.not_mem_nil _ hmem

theorem unvisitedNeighbors_length_le (w h : Int) (visited : List Coordinates)
    (c : Coordinates) : (unvisitedNeighbors w h visited c).length ≤ 4 := by
  rw [unvisitedNeighbors]
  have h1 := List.length_filter_le
    (fun n => inGrid w h n && !(visited.contains n))
    ((Direction.all.map (fun d => c.next d)))
  simpa [Direction.all] using h1

theorem grid_connected (w h : Int) (vis : List Coordinates)
    (hstart : (⟨0, 0⟩ : Coordinates) ∈ vis)
    (hcl : ∀ c ∈ vis, ∀ d, inGrid w h (c.next d) = true → c.next d ∈ vis) :
    ∀ c : Coordinates, inGrid w h c = true → c ∈ vis := by
  have key : ∀ n : Nat, ∀ c : Coordinates, inGrid w h c = true →
      (c.x + c.y).toNat ≤ n → c ∈ vis := by
    intro n
    induction n with
    | zero =>
      intro c hc hle
      rw [inGrid_iff] at hc
      have hcz : c = ⟨0, 0⟩ := Coordinates.ext_xy _ _ (by dsimp; omega) (by dsimp; omega)
      rw [hcz]
      exact hstart
    | succ n ih =>
      intro c hc hle
      rw [inGrid_iff] at hc
      by_cases hx : 0 < c.x
      · have hc' : inGrid w h ⟨c.x - 1, c.y⟩ = true := by
          rw [inGrid_iff]
          refine ⟨?_, ?_, ?_, ?_⟩ <;> dsimp <;> omega
        have hmem : (⟨c.x - 1, c.y⟩ : Coordinates) ∈ vis := ih _ hc' (by dsimp; omega)
        have hnext : (⟨c.x - 1, c.y⟩ : Coordinates).next Direction.East = c := by
          refine Coordinates.ext_xy _ _ ?_ ?_ <;> simp [Coordinates.next]
        have hcc := hcl _ hmem Direction.East (by rw [hnext, inGrid_iff]; exact hc)
        rwa [hnext] at hcc
      · by_cases hy : 0 < c.y
        · have hc' : inGrid w h ⟨c.x, c.y - 1⟩ = true := by
            rw [inGrid_iff]
            refine ⟨?_, ?_, ?_, ?_⟩ <;> dsimp <;> omega
          have hmem : (⟨c.x, c.y - 1⟩ : Coordinates) ∈ vis := ih _ hc' (by dsimp; omega)
          have hnext : (⟨c.x, c.y - 1⟩ : Coordinates).next Direction.South = c := by
            refine Coordinates.ext_xy _ _ ?_ ?_ <;> simp [Coordinates.next]
          have hcc := hcl _ hmem Direction.South (by rw [hnext, inGrid_iff]; exact hc)
          rwa [hnext] at hcc
        · have hcz : c = ⟨0, 0⟩ :=
            Coordinates.ext_xy _ _ (by dsimp; omega) (by dsimp; omega)
          rw [hcz]
          exact hstart
  intro c hc
  exact key (c.x + c.y).toNat c hc le_rfl

theorem sdiff_insert_toFinset (w h : Int) (S : Finset Coordinates) (n : Coordinates) :
    gridCells w h \ insert n S = (gridCells w h \ S).erase n := by
  ext x
  simp only [Finset.mem_sdiff, Finset.mem_insert, Finset.mem_erase]
  tauto

theorem gtCarve_good (w h : Int) (visited active : List Coordinates)
    (edges : List (Coordinates × Coordinates)) (c n : Coordinates)
    (hc : c ∈ active) (hn : n ∈ unvisitedNeighbors w h visited c)
    (hinv : GTInv w h ⟨visited, active, edges⟩) :
    GTInv w h ⟨n :: visited, n :: active, (c, n) :: edges⟩ ∧
    gtMeasure w h ⟨n :: visited, n :: active, (c, n) :: edges⟩ <
      gtMeasure w h ⟨visited, active, edges⟩ := by
  obtain ⟨hgrid, hnv, _, _⟩ := unvisitedNeighbors_mem hn
  constructor
  · refine ⟨List.nodup_cons.mpr ⟨hnv, hinv.nodup⟩, ?_, ?_, ?_, ?_, ?_, ?_⟩
    · intro x hx
      rcases List.mem_cons.mp hx with hxeq | hx2
      · subst hxeq
        exact hgrid
      · exact hinv.inb x hx2
    · exact List.mem_cons_of_mem n hinv.start_mem
    · intro x hx
      rcases List.mem_cons.mp hx with hxeq | hx2
      · subst hxeq
        exact List.mem_cons_self x visited
      · exact List.mem_cons_of_mem n (hinv.active_sub x hx2)
    · intro x hx
      rcases List.mem_cons.mp hx with hxeq | hx2
      · subst hxeq
        have hrc : Reach ((c, x) :: edges) ⟨0, 0⟩ c :=
          (hinv.reach c (hinv.active_sub c hc)).cons
        exact hrc.tail (Or.inl (List.mem_cons_self _ _))
      · exact (hinv.reach x hx2).cons
    · have hcount := hinv.count
      dsimp at hcount
      show ((c, n) :: edges).length + 1 = (n :: visited).length
      simp only [List.length_cons]
      omega
    · intro x hx hxa d hd
      have hxn : x ≠ n ∧ x ∉ active := by
        constructor
        · intro hxe
          exact hxa (hxe ▸ List.mem_cons_self n active)
        · intro hxm
          exact hxa (List.mem_cons_of_mem n hxm)
      have hxv : x ∈ visited := by
        rcases List.mem_cons.mp hx with rfl | hx2
        · exact absurd rfl hxn.1
        · exact hx2
      exact List.mem_cons_of_mem n (hinv.closed x hxv hxn.2 d hd)
  · have hmemn : n ∈ gridCells w h \ visited.toFinset :=
      Finset.mem_sdiff.mpr ⟨(mem_gridCells w h n).mpr hgrid, by
        simp only [List.mem_toFinset]
        exact hnv⟩
    have hpos : 0 < (gridCells w h \ visited.toFinset).card :=
      Finset.card_pos.mpr ⟨n, hmemn⟩
    have hcard : (gridCells w h \ (n :: visited).toFinset).card =
        (gridCells w h \ visited.toFinset).card - 1 := by
      rw [List.toFinset_cons, sdiff_insert_toFinset, Finset.card_erase_of_mem hmemn]
    simp only [gtMeasure, hcard, List.length_cons]
    omega

theorem gtErase_good (w h : Int) (visited active : List Coordinates)
    (edges : List (Coordinates × Coordinates)) (c : Coordinates)
    (hc : c ∈ active) (hnil : unvisitedNeighbors w h visited c = [])
    (hinv : GTInv w h ⟨visited, active, edges⟩) :
    GTInv w h ⟨visited, active.erase c, edges⟩ ∧
    gtMeasure w h ⟨visited, active.erase c, edges⟩ <
      gtMeasure w h ⟨visited, active, edges⟩ := by
  constructor
  · refine ⟨hinv.nodup, hinv.inb, hinv.start_mem, ?_, hinv.reach, hinv.count, ?_⟩
    · intro x hx
      exact hinv.active_sub x (List.mem_of_mem_erase hx)
    · intro x hx hxe d hd
      by_cases hxa : x ∈ active
      · have hxc : x = c := by
          by_contra hne
          exact hxe ((List.mem_erase_of_ne hne).mpr hxa)
        rw [hxc] at hd ⊢
        exact unvisitedNeighbors_nil hnil d hd
      · exact hinv.closed x hx hxa d hd
  · have hlen : (active.erase c).length = active.length - 1 :=
      List.length_erase_of_mem hc
    have hpos : 0 < active.length := List.length_pos.mpr (List.ne_nil_of_mem hc)
    simp only [gtMeasure, hlen]
    omega

theorem gtStep_good (w h : Int) (rng : Nat → Nat) (k : Nat) (s : GenState)
    (hA : s.active ≠ []) (hinv : GTInv w h s) :
    GTInv w h (growingTreeStep w h rng k s) ∧
    gtMeasure w h (growingTreeStep w h rng k s) < gtMeasure w h s := by
  obtain ⟨visited, active, edges⟩ := s
  rcases hAe : active with _ | ⟨a, rest⟩
  · exact absurd hAe hA
  · subst hAe
    simp only [growingTreeStep]
    have hc : ((a :: rest).get
        ⟨rng (2 * k) % (a :: rest).length, Nat.mod_lt _ (Nat.succ_pos _)⟩) ∈ a :: rest :=
      List.get_mem _ _ _
    rcases hN : unvisitedNeighbors w h visited ((a :: rest).get
        ⟨rng (2 * k) % (a :: rest).length, Nat.mod_lt _ (Nat.succ_pos _)⟩)
      with _ | ⟨n0, ns⟩
    · simp only [hN]
      exact gtErase_good w h visited (a :: rest) edges _ hc hN hinv
    · simp only [hN]
      have hnm : ((n0 :: ns).get
          ⟨rng (2 * k + 1) % (n0 :: ns).length, Nat.mod_lt _ (Nat.succ_pos _)⟩) ∈
          unvisitedNeighbors w h visited ((a :: rest).get
            ⟨rng (2 * k) % (a :: rest).length, Nat.mod_lt _ (Nat.succ_pos _)⟩) := by
        rw [hN]
        exact List.get_mem _ _ _
      exact gtCarve_good w h visited (a :: rest) edges _ _ hc hnm hinv

theorem gtLoop_good (w h : Int) (rng : Nat → Nat) :
    ∀ (fuel k : Nat) (s : GenState), GTInv w h s → gtMeasure w h s ≤ fuel →
      GTInv w h (growingTreeLoop w h rng fuel k s) ∧
      (growingTreeLoop w h rng fuel k s).active = [] := by
  intro fuel
  induction fuel with
  | zero =>
    intro k s hinv hm
    have hz : s.active.length = 0 := by
      have := hm
      simp only [gtMeasure] at this
      omega
    exact ⟨hinv, List.length_eq_zero.mp hz⟩
  | succ fuel ih =>
    intro k s hinv hm
    rw [growingTreeLoop]
    by_cases hA : s.active = []
    · rw [if_pos hA]
      exact ⟨hinv, hA⟩
    · rw [if_neg hA]
      obtain ⟨hinv2, hlt⟩ := gtStep_good w h rng k s hA hinv
      exact ih (k + 1) _ hinv2 (by omega)

theorem contains_true_iff (l : List Coordinates) (a : Coordinates) :
    l.contains a = true ↔ a ∈ l := by
  simp

theorem gtInit_inv (w h : Int) (hw : 0 < w) (hh : 0 < h) :
    GTInv w h ⟨[⟨0, 0⟩], [⟨0, 0⟩], []⟩ := by
  refine ⟨List.nodup_singleton _, ?_, List.mem_singleton_self _, ?_, ?_, rfl, ?_⟩
  · intro c hc
    rw [List.mem_singleton.mp hc, inGrid_iff]
    refine ⟨?_, ?_, ?_, ?_⟩ <;> dsimp <;> omega
  · intro c hc
    exact hc
  · intro c hc
    rw [List.mem_singleton.mp hc]
    exact Relation.ReflTransGen.refl
  · intro c hc hca
    exact absurd hc hca

theorem gtInit_measure (w h : Int) (hw : 0 < w) (hh : 0 < h) :
    gtMeasure w h ⟨[⟨0, 0⟩], [⟨0, 0⟩], []⟩ ≤ 2 * (w.toNat * h.toNat) := by
  have hsub : ([(⟨0, 0⟩ : Coordinates)].toFinset : Finset Coordinates) ⊆ gridCells w h := by
    intro c hc
    simp only [List.toFinset_cons, List.toFinset_nil, insert_emptyc_eq,
      Finset.mem_singleton] at hc
    rw [hc, mem_gridCells, inGrid_iff]
    refine ⟨?_, ?_, ?_, ?_⟩ <;> dsimp <;> omega
  have hcard : (gridCells w h \ [(⟨0, 0⟩ : Coordinates)].toFinset).card =
      (gridCells w h).card - 1 := by
    rw [Finset.card_sdiff hsub]
    simp
  have hwh : (gridCells w h).card = w.toNat * h.toNat := card_gridCells w h
  have hpos : 1 ≤ w.toNat * h.toNat := by
    have : 1 ≤ w.toNat := by omega
    have : 1 ≤ h.toNat := by omega
    exact Nat.one_le_iff_ne_zero.mpr (by positivity)
  simp only [gtMeasure, hcard, hwh, List.length_singleton]
  omega

theorem final_spanning (w h : Int) (hw : 0 < w) (hh : 0 < h)
    (visited : List Coordinates) (edges : List (Coordinates × Coordinates))
    (hnd : visited.Nodup)
    (hinb : ∀ c ∈ visited, inGrid w h c = true)
    (hstart : (⟨0, 0⟩ : Coordinates) ∈ visited)
    (hclosed : ∀ c ∈ visited, ∀ d, inGrid w h (c.next d) = true → c.next d ∈ visited)
    (hcount : edges.length + 1 = visited.length)
    (hreach : ∀ c ∈ visited, Reach edges ⟨0, 0⟩ c)
    (start goal : Coordinates) :
    SpanningTreeInvariant ⟨⟨visited, edges⟩, start, goal, (w, h)⟩ w h := by
  have hcompl : ∀ c : Coordinates, inGrid w h c = true → c ∈ visited :=
    grid_connected w h visited hstart hclosed
  have hfin : visited.toFinset = gridCells w h := by
    ext c
    rw [List.mem_toFinset, mem_gridCells]
    exact ⟨hinb c, hcompl c⟩
  have hlen : visited.length = w.toNat * h.toNat := by
    rw [← List.toFinset_card_of_nodup hnd, hfin, card_gridCells]
  have hpos : 1 ≤ w.toNat * h.toNat := by
    have h1 : 1 ≤ w.toNat := by omega
    have h2 : 1 ≤ h.toNat := by omega
    exact Nat.one_le_iff_ne_zero.mpr (by positivity)
  have hedges : edges.length = w.toNat * h.toNat - 1 := by omega
  refine ⟨rfl, hnd, ?_, hlen, hedges, ?_⟩
  · intro c
    rw [← inGrid_iff w h c]
    exact ⟨hinb c, hcompl c⟩
  · intro a ha b hb
    exact Relation.ReflTransGen.trans (Reach.symm (hreach a ha)) (hreach b hb)

theorem growingTreeGenerate_ok (rng : Nat → Nat) (w h : Int)
    (hw : 0 < w) (hh : 0 < h) :
    ∃ m, growingTreeGenerate rng w h = Except.ok m ∧ SpanningTreeInvariant m w h := by
  simp only [growingTreeGenerate, if_pos (And.intro hw hh)]
  refine ⟨_, rfl, ?_⟩
  obtain ⟨hinv, hA⟩ := gtLoop_good w h rng (2 * (w.toNat * h.toNat)) 0
    ⟨[⟨0, 0⟩], [⟨0, 0⟩], []⟩ (gtInit_inv w h hw hh) (gtInit_measure w h hw hh)
  exact final_spanning w h hw hh _ _ hinv.nodup hinv.inb hinv.start_mem
    (fun c hc d hd => hinv.closed c hc (by rw [hA]; exact List.not_mem_nil c) d hd)
    hinv.count hinv.reach _ _

theorem primDiscard_good (w h : Int) (visited : List Coordinates)
    (frontier edges : List (Coordinates × Coordinates)) (e : Coordinates × Coordinates)
    (he : e ∈ frontier) (hev : e.2 ∈ visited)
    (hinv : PInv w h ⟨visited, frontier, edges⟩) :
    PInv w h ⟨visited, frontier.erase e, edges⟩ ∧
    primMeasure w h ⟨visited, frontier.erase e, edges⟩ <
      primMeasure w h ⟨visited, frontier, edges⟩ := by
  constructor
  · refine ⟨hinv.nodup, hinv.inb, hinv.start_mem, ?_, ?_, hinv.reach, hinv.count, ?_⟩
    · intro x hx
      exact hinv.frontier_src x (List.mem_of_mem_erase hx)
    · intro x hx
      exact hinv.frontier_tgt x (List.mem_of_mem_erase hx)
    · intro c hc d hd
      rcases hinv.closed c hc d hd with hm | hf
      · exact Or.inl hm
      · by_cases hfe : (c, c.next d) = e
        · refine Or.inl ?_
          have : c.next d = e.2 := by rw [← hfe]
          rw [this]
          exact hev
        · exact Or.inr ((List.mem_erase_of_ne hfe).mpr hf)
  · have hlen : (frontier.erase e).length = frontier.length - 1 :=
      List.length_erase_of_mem he
    have hpos : 0 < frontier.length := List.length_pos.mpr (List.ne_nil_of_mem he)
    simp only [primMeasure, hlen]
    omega

theorem primCarve_good (w h : Int) (visited : List Coordinates)
    (frontier edges : List (Coordinates × Coordinates)) (e : Coordinates × Coordinates)
    (he : e ∈ frontier) (hnv : e.2 ∉ visited)
    (hinv : PInv w h ⟨visited, frontier, edges⟩) :
    PInv w h ⟨e.2 :: visited,
      (unvisitedNeighbors w h (e.2 :: visited) e.2).map (fun u => (e.2, u)) ++
        frontier.erase e, e :: edges⟩ ∧
    primMeasure w h ⟨e.2 :: visited,
      (unvisitedNeighbors w h (e.2 :: visited) e.2).map (fun u => (e.2, u)) ++
        frontier.erase e, e :: edges⟩ <
      primMeasure w h ⟨visited, frontier, edges⟩ := by
  have hgrid : inGrid w h e.2 = true := hinv.frontier_tgt e he
  constructor
  · refine ⟨List.nodup_cons.mpr ⟨hnv, hinv.nodup⟩, ?_, ?_, ?_, ?_, ?_, ?_, ?_⟩
    · intro x hx
      rcases List.mem_cons.mp hx with hxeq | hx2
      · subst hxeq
        exact hgrid
      · exact hinv.inb x hx2
    · exact List.mem_cons_of_mem _ hinv.start_mem
    · intro x hx
      rcases List.mem_append.mp hx with hxm | hxe
      · rcases List.mem_map.mp hxm with ⟨u, _, rfl⟩
        exact List.mem_cons_self _ _
      · exact List.mem_cons_of_mem _ (hinv.frontier_src x (List.mem_of_mem_erase hxe))
    · intro x hx
      rcases List.mem_append.mp hx with hxm | hxe
      · rcases List.mem_map.mp hxm with ⟨u, hu, rfl⟩
        exact (unvisitedNeighbors_mem hu).1
      · exact hinv.frontier_tgt x (List.mem_of_mem_erase hxe)
    · intro x hx
      rcases List.mem_cons.mp hx with hxeq | hx2
      · subst hxeq
        have hr1 : Reach (e :: edges) ⟨0, 0⟩ e.1 :=
          (hinv.reach e.1 (hinv.frontier_src e he)).cons
        exact hr1.tail (Or.inl (by
          have hee : (e.1, e.2) = e := rfl
          rw [hee]
          exact List.mem_cons_self _ _))
      · exact (hinv.reach x hx2).cons
    · have hcount := hinv.count
      dsimp at hcount
      show (e :: edges).length + 1 = (e.2 :: visited).length
      simp only [List.length_cons]
      omega
    · intro x hx d hd
      rcases List.mem_cons.mp hx with hxeq | hx2
      · subst hxeq
        by_cases hm : e.2.next d ∈ e.2 :: visited
        · exact Or.inl hm
        · refine Or.inr (List.mem_append.mpr (Or.inl ?_))
          have hmem : e.2.next d ∈ unvisitedNeighbors w h (e.2 :: visited) e.2 := by
            rw [unvisitedNeighbors]
            refine List.mem_filter.mpr
              ⟨List.mem_map.mpr ⟨d, Direction.mem_all d, rfl⟩, ?_⟩
            rw [Bool.and_eq_true]
            exact ⟨hd, by simp [hm]⟩
          exact List.mem_map.mpr ⟨e.2.next d, hmem, rfl⟩
      · rcases hinv.closed x hx2 d hd with hm | hf
        · exact Or.inl (List.mem_cons_of_mem _ hm)
        · by_cases hfe : (x, x.next d) = e
          · refine Or.inl ?_
            have h2 : x.next d = e.2 := by rw [← hfe]
            rw [h2]
            exact List.mem_cons_self _ _
          · exact Or.inr (List.mem_append.mpr
              (Or.inr ((List.mem_erase_of_ne hfe).mpr hf)))
  · have hmemn : e.2 ∈ gridCells w h \ visited.toFinset :=
      Finset.mem_sdiff.mpr ⟨(mem_gridCells w h e.2).mpr hgrid, by
        simp only [List.mem_toFinset]
        exact hnv⟩
    have hpos : 0 < (gridCells w h \ visited.toFinset).card :=
      Finset.card_pos.mpr ⟨e.2, hmemn⟩
    have hcard : (gridCells w h \ (e.2 :: visited).toFinset).card =
        (gridCells w h \ visited.toFinset).card - 1 := by
      rw [List.toFinset_cons, sdiff_insert_toFinset, Finset.card_erase_of_mem hmemn]
    have hulen : (unvisitedNeighbors w h (e.2 :: visited) e.2).length ≤ 4 :=
      unvisitedNeighbors_length_le w h (e.2 :: visited) e.2
    have hflen : (frontier.erase e).length = frontier.length - 1 :=
      List.length_erase_of_mem he
    have hfpos : 0 < frontier.length := List.length_pos.mpr (List.ne_nil_of_mem he)
    simp only [primMeasure, hcard, List.length_append, List.length_map, hflen]
    omega

theorem primStep_good (w h : Int) (rng : Nat → Nat) (k : Nat) (s : PrimState)
    (hF : s.frontier ≠ []) (hinv : PInv w h s) :
    PInv w h (primStep w h rng k s) ∧
    primMeasure w h (primStep w h rng k s) < primMeasure w h s := by
  obtain ⟨visited, frontier, edges⟩ := s
  rcases hFe : frontier with _ | ⟨f0, fs⟩
  · exact absurd hFe hF
  · subst hFe
    simp only [primStep]
    have he : ((f0 :: fs).get
        ⟨rng k % (f0 :: fs).length, Nat.mod_lt _ (Nat.succ_pos _)⟩) ∈ f0 :: fs :=
      List.get_mem _ _ _
    rcases hcont : (visited.contains ((f0 :: fs).get
        ⟨rng k % (f0 :: fs).length, Nat.mod_lt _ (Nat.succ_pos _)⟩).2) with _ | _
    · simp only [hcont, Bool.false_eq_true, if_false]
      refine primCarve_good w h visited (f0 :: fs) edges _ he ?_ hinv
      intro hmem
      rw [← contains_true_iff] at hmem
      rw [hcont] at hmem
      exact Bool.false_ne_true hmem
    · simp only [hcont, if_true]
      exact primDiscard_good w h visited (f0 :: fs) edges _ he
        ((contains_true_iff _ _).mp hcont) hinv

theorem primLoop_good (w h : Int) (rng : Nat → Nat) :
    ∀ (fuel k : Nat) (s : PrimState), PInv w h s → primMeasure w h s ≤ fuel →
      PInv w h (primLoop w h rng fuel k s) ∧
      (primLoop w h rng fuel k s).frontier = [] := by
  intro fuel
  induction fuel with
  | zero =>
    intro k s hinv hm
    have hz : s.frontier.length = 0 := by
      simp only [primMeasure] at hm
      omega
    exact ⟨hinv, List.length_eq_zero.mp hz⟩
  | succ fuel ih =>
    intro k s hinv hm
    rw [primLoop]
    by_cases hF : s.frontier = []
    · rw [if_pos hF]
      exact ⟨hinv, hF⟩
    · rw [if_neg hF]
      obtain ⟨hinv2, hlt⟩ := primStep_good w h rng k s hF hinv
      exact ih (k + 1) _ hinv2 (by omega)

theorem primInit_inv (w h : Int) (hw : 0 < w) (hh : 0 < h) :
    PInv w h ⟨[⟨0, 0⟩],
      (unvisitedNeighbors w h [⟨0, 0⟩] ⟨0, 0⟩).map (fun u => (⟨0, 0⟩, u)), []⟩ := by
  refine ⟨List.nodup_singleton _, ?_, List.mem_singleton_self _, ?_, ?_, ?_, rfl, ?_⟩
  · intro c hc
    rw [List.mem_singleton.mp hc, inGrid_iff]
    refine ⟨?_, ?_, ?_, ?_⟩ <;> dsimp <;> omega
  · intro x hx
    rcases List.mem_map.mp hx with ⟨u, _, rfl⟩
    exact List.mem_singleton_self _
  · intro x hx
    rcases List.mem_map.mp hx with ⟨u, hu, rfl⟩
    exact (unvisitedNeighbors_mem hu).1
  · intro c hc
    rw [List.mem_singleton.mp hc]
    exact Relation.ReflTransGen.refl
  · intro c hc d hd
    have hcz : c = ⟨0, 0⟩ := List.mem_singleton.mp hc
    subst hcz
    refine Or.inr ?_
    have hmem : (⟨0, 0⟩ : Coordinates).next d ∈
        unvisitedNeighbors w h [⟨0, 0⟩] ⟨0, 0⟩ := by
      rw [unvisitedNeighbors]
      refine List.mem_filter.mpr
        ⟨List.mem_map.mpr ⟨d, Direction.mem_all d, rfl⟩, ?_⟩
      rw [Bool.and_eq_true]
      refine ⟨hd, ?_⟩
      simp only [List.contains_cons, List.contains_nil, Bool.or_false, Bool.not_eq_true,
        beq_iff_eq, Bool.not_eq_eq_eq_not, Bool.not_true, beq_eq_false_iff_ne, ne_eq]
      exact Coordinates.next_ne ⟨0, 0⟩ d
    exact List.mem_map.mpr ⟨(⟨0, 0⟩ : Coordinates).next d, hmem, rfl⟩

theorem primInit_measure (w h : Int) (hw : 0 < w) (hh : 0 < h) :
    primMeasure w h ⟨[⟨0, 0⟩],
      (unvisitedNeighbors w h [⟨0, 0⟩] ⟨0, 0⟩).map (fun u => (⟨0, 0⟩, u)), []⟩ ≤
      5 * (w.toNat * h.toNat) := by
  have hsub : ([(⟨0, 0⟩ : Coordinates)].toFinset : Finset Coordinates) ⊆ gridCells w h := by
    intro c hc
    simp only [List.toFinset_cons, List.toFinset_nil, insert_emptyc_eq,
      Finset.mem_singleton] at hc
    rw [hc, mem_gridCells, inGrid_iff]
    refine ⟨?_, ?_, ?_, ?_⟩ <;> dsimp <;> omega
  have hcard : (gridCells w h \ [(⟨0, 0⟩ : Coordinates)].toFinset).card =
      (gridCells w h).card - 1 := by
    rw [Finset.card_sdiff hsub]
    simp
  have hwh : (gridCells w h).card = w.toNat * h.toNat := card_gridCells w h
  have hpos : 1 ≤ w.toNat * h.toNat := by
    have h1 : 1 ≤ w.toNat := by omega
    have h2 : 1 ≤ h.toNat := by omega
    exact Nat.one_le_iff_ne_zero.mpr (by positivity)
  have hulen : (unvisitedNeighbors w h [(⟨0, 0⟩ : Coordinates)] ⟨0, 0⟩).length ≤ 4 :=
    unvisitedNeighbors_length_le w h _ _
  simp only [primMeasure, hcard, hwh, List.length_map]
  omega

theorem primGenerate_ok (rng : Nat → Nat) (w h : Int)
    (hw : 0 < w) (hh : 0 < h) :
    ∃ m, primGenerate rng w h = Except.ok m ∧ SpanningTreeInvariant m w h := by
  simp only [primGenerate, if_pos (And.intro hw hh)]
  refine ⟨_, rfl, ?_⟩
  obtain ⟨hinv, hF⟩ := primLoop_good w h rng (5 * (w.toNat * h.toNat)) 0
    ⟨[⟨0, 0⟩], (unvisitedNeighbors w h [⟨0, 0⟩] ⟨0, 0⟩).map (fun u => (⟨0, 0⟩, u)), []⟩
    (primInit_inv w h hw hh) (primInit_measure w h hw hh)
  refine final_spanning w h hw hh _ _ hinv.nodup hinv.inb hinv.start_mem
    (fun c hc d hd => ?_) hinv.count hinv.reach _ _
  rcases hinv.closed c hc d hd with hm | hfr
  · exact hm
  · rw [hF] at hfr
    exact absurd hfr (List.not_mem_nil _)

theorem relabel_self (a b : Nat) : relabel a b a = b := by
  simp [relabel]

theorem relabel_other (a b v : Nat) (hv : v ≠ a) : relabel a b v = v := by
  simp [relabel, hv]

theorem relabel_eq_cases (a b u v : Nat) (_hab : a ≠ b)
    (heq : relabel a b u = relabel a b v) :
    u = v ∨ (u = a ∧ v = b) ∨ (u = b ∧ v = a) := by
  by_cases hu : u = a <;> by_cases hv : v = a <;>
    simp only [relabel, hu, hv, if_pos, if_neg, if_true, if_false] at heq <;> omega

theorem image_relabel (s : Finset Nat) (a b : Nat) (hb : b ∈ s) (hab : a ≠ b) :
    s.image (relabel a b) = s.erase a := by
  ext v
  simp only [Finset.mem_image, Finset.mem_erase]
  constructor
  · rintro ⟨u, hu, rfl⟩
    by_cases hua : u = a
    · subst hua
      rw [relabel_self]
      exact ⟨fun hba => hab hba.symm, hb⟩
    · rw [relabel_other _ _ _ hua]
      exact ⟨hua, hu⟩
  · rintro ⟨hva, hvs⟩
    exact ⟨v, hvs, relabel_other _ _ _ hva⟩

theorem hStep_inv (wN r : Nat) (forced : Bool) (rng : Nat → Nat) (st : ERow)
    (fresh x : Nat) (hx1 : 1 ≤ x) (hx2 : x < wN)
    (hinv : EInv wN r st fresh) : EInv wN r (hStep wN r forced rng st x) fresh := by
  obtain ⟨L, hA1, hF, hA2, hA4, hA3, hC, hE⟩ := hinv
  rw [hStep]
  by_cases hcond : st.ids (x - 1) ≠ st.ids x ∧
      (forced = true ∨ rng (2 * (r * wN + x)) % 2 = 0)
  · rw [if_pos hcond]
    have hne : st.ids x ≠ st.ids (x - 1) := fun hxx => hcond.1 hxx.symm
    have hxm1 : x - 1 < wN := by omega
    refine ⟨fun c => relabel (st.ids x) (st.ids (x - 1)) (L c),
      ?_, ?_, ?_, ?_, ?_, ?_, ?_⟩
    · intro e he
      rcases List.mem_cons.mp he with heq | hold
      · subst heq
        dsimp
        rw [hA2 (x - 1) hxm1, hA2 x hx2, relabel_self,
          relabel_other _ _ _ (fun hc => hne hc.symm)]
      · dsimp
        rw [hA1 e hold]
    · intro e he
      rcases List.mem_cons.mp he with heq | hold
      · subst heq
        constructor <;> dsimp [cellN] <;> omega
      · exact hF e hold
    · intro y hy
      dsimp
      rw [hA2 y hy]
    · intro y z hy hz hyz
      dsimp at hyz
      have hreach0 : ∀ u v, u < wN → v < wN → st.ids u = st.ids v →
          Reach ((cellN (x - 1) r, cellN x r) :: st.edges) (cellN u r) (cellN v r) :=
        fun u v hu hv huv => (hA4 u v hu hv huv).cons
      rcases relabel_eq_cases _ _ _ _ hne hyz with heq | ⟨hy1, hz1⟩ | ⟨hy1, hz1⟩
      · exact hreach0 y z hy hz heq
      · -- ids y = ids x, ids z = ids (x-1): path y → x → x-1 → z
        have h1 := hreach0 y x hy hx2 hy1
        have h2 : Reach ((cellN (x - 1) r, cellN x r) :: st.edges)
            (cellN x r) (cellN (x - 1) r) :=
          Relation.ReflTransGen.single (Or.inr (List.mem_cons_self _ _))
        have h3 := hreach0 (x - 1) z hxm1 hz hz1.symm
        exact (h1.trans h2).trans h3
      · have h1 := hreach0 y (x - 1) hy hxm1 hy1
        have h2 : Reach ((cellN (x - 1) r, cellN x r) :: st.edges)
            (cellN (x - 1) r) (cellN x r) :=
          Relation.ReflTransGen.single (Or.inl (List.mem_cons_self _ _))
        have h3 := hreach0 x z hx2 hz hz1.symm
        exact (h1.trans h2).trans h3
    · intro c hc
      obtain ⟨y, hy, hLc, hrc⟩ := hA3 c hc
      refine ⟨y, hy, ?_, hrc.cons⟩
      dsimp
      rw [hLc]
    · have himg : (Finset.range wN).image
          (fun y => relabel (st.ids x) (st.ids (x - 1)) (st.ids y)) =
          ((Finset.range wN).image st.ids).erase (st.ids x) := by
        have hcomp : (Finset.range wN).image
            (fun y => relabel (st.ids x) (st.ids (x - 1)) (st.ids y)) =
            ((Finset.range wN).image st.ids).image
              (relabel (st.ids x) (st.ids (x - 1))) := by
          rw [Finset.image_image]
          rfl
        rw [hcomp]
        exact image_relabel _ _ _
          (Finset.mem_image.mpr ⟨x - 1, Finset.mem_range.mpr hxm1, rfl⟩) hne
      have hxmem : st.ids x ∈ (Finset.range wN).image st.ids :=
        Finset.mem_image.mpr ⟨x, Finset.mem_range.mpr hx2, rfl⟩
      have hcard : Dcount wN (fun y => relabel (st.ids x) (st.ids (x - 1)) (st.ids y)) =
          Dcount wN st.ids - 1 := by
        rw [Dcount, Dcount, himg, Finset.card_erase_of_mem hxmem]
      have hDpos : 0 < Dcount wN st.ids :=
        Finset.card_pos.mpr ⟨st.ids x, hxmem⟩
      show ((cellN (x - 1) r, cellN x r) :: st.edges).length +
        Dcount wN (fun y => relabel (st.ids x) (st.ids (x - 1)) (st.ids y)) = (r + 1) * wN
      rw [hcard, List.length_cons]
      omega
    · intro y hy
      dsimp
      rw [relabel]
      split_ifs
      · exact hE (x - 1) hxm1
      · exact hE y hy
  · rw [if_neg hcond]
    exact ⟨L, hA1, hF, hA2, hA4, hA3, hC, hE⟩

theorem hPhase_inv_aux (wN r : Nat) (forced : Bool) (rng : Nat → Nat) (fresh : Nat) :
    ∀ (l : List Nat) (st : ERow), (∀ x ∈ l, 1 ≤ x ∧ x < wN) →
      EInv wN r st fresh → EInv wN r (l.foldl (hStep wN r forced rng) st) fresh := by
  intro l
  induction l with
  | nil => intro st _ hinv; exact hinv
  | cons a l ih =>
    intro st hall hinv
    rw [List.foldl_cons]
    exact ih _ (fun x hx => hall x (List.mem_cons_of_mem a hx))
      (hStep_inv wN r forced rng st fresh a (hall a (List.mem_cons_self a l)).1
        (hall a (List.mem_cons_self a l)).2 hinv)

theorem hPhase_inv (wN r : Nat) (forced : Bool) (rng : Nat → Nat) (st : ERow)
    (fresh : Nat) (hinv : EInv wN r st fresh) :
    EInv wN r (hPhase wN r forced rng st) fresh := by
  rw [hPhase]
  refine hPhase_inv_aux wN r forced rng fresh _ st (fun x hx => ?_) hinv
  have hm := List.mem_range'_1.mp hx
  omega

theorem hStep_ids_pair (wN r : Nat) (rng : Nat → Nat) (st : ERow) (x : Nat) :
    (hStep wN r true rng st x).ids x = (hStep wN r true rng st x).ids (x - 1) := by
  rw [hStep]
  by_cases hcond : st.ids (x - 1) ≠ st.ids x ∧
      (true = true ∨ rng (2 * (r * wN + x)) % 2 = 0)
  · rw [if_pos hcond]
    dsimp
    rw [relabel_self, relabel_other _ _ _ hcond.1]
  · rw [if_neg hcond]
    have heq : st.ids (x - 1) = st.ids x := by
      by_contra hne
      exact hcond ⟨hne, Or.inl rfl⟩
    exact heq.symm

theorem hStep_ids_fun (wN r : Nat) (forced : Bool) (rng : Nat → Nat) (st : ERow)
    (x : Nat) : ∃ f : Nat → Nat, ∀ y, (hStep wN r forced rng st x).ids y = f (st.ids y) := by
  rw [hStep]
  by_cases hcond : st.ids (x - 1) ≠ st.ids x ∧
      (forced = true ∨ rng (2 * (r * wN + x)) % 2 = 0)
  · rw [if_pos hcond]
    exact ⟨relabel (st.ids x) (st.ids (x - 1)), fun y => rfl⟩
  · rw [if_neg hcond]
    exact ⟨id, fun y => rfl⟩

theorem forced_const_aux (wN r : Nat) (rng : Nat → Nat) :
    ∀ (n start : Nat) (st : ERow), 1 ≤ start →
      (∀ y, y < start → st.ids y = st.ids 0) →
      ∀ y, y < start + n →
        ((List.range' start n).foldl (hStep wN r true rng) st).ids y =
        ((List.range' start n).foldl (hStep wN r true rng) st).ids 0 := by
  intro n
  induction n with
  | zero =>
    intro start st _ hpre y hy
    exact hpre y (by omega)
  | succ n ih =>
    intro start st hs hpre y hy
    rw [List.range'_succ, List.foldl_cons]
    refine ih (start + 1) (hStep wN r true rng st start) (by omega) ?_ y (by omega)
    intro z hz
    obtain ⟨f, hf⟩ := hStep_ids_fun wN r true rng st start
    by_cases hzs : z < start
    · rw [hf z, hf 0, hpre z hzs]
    · have hz1 : z = start := by omega
      subst hz1
      rw [hStep_ids_pair wN r rng st z]
      have hsm : z - 1 < z := by omega
      rw [hf (z - 1), hf 0, hpre (z - 1) hsm]

theorem hPhase_forced_const (wN r : Nat) (rng : Nat → Nat) (st : ERow)
    (hw : 1 ≤ wN) :
    ∀ y, y < wN → (hPhase wN r true rng st).ids y = (hPhase wN r true rng st).ids 0 := by
  intro y hy
  rw [hPhase]
  refine forced_const_aux wN r rng (wN - 1) 1 st le_rfl (fun z hz => ?_) y (by omega)
  have hz0 : z = 0 := by omega
  rw [hz0]

theorem Dcount_const (wN : Nat) (hw : 1 ≤ wN) (ids : Nat → Nat)
    (hconst : ∀ y, y < wN → ids y = ids 0) : Dcount wN ids = 1 := by
  rw [Dcount]
  have himg : (Finset.range wN).image ids = {ids 0} := by
    ext v
    simp only [Finset.mem_image, Finset.mem_range, Finset.mem_singleton]
    constructor
    · rintro ⟨u, hu, rfl⟩
      exact hconst u hu
    · intro hv
      exact ⟨0, by omega, hv.symm⟩
  rw [himg]
  rfl

theorem list_filter_length_eq_card (p : Nat → Bool) :
    ∀ n : Nat, ((List.range n).filter p).length =
      ((Finset.range n).filter (fun x => p x = true)).card := by
  intro n
  induction n with
  | zero => rfl
  | succ n ih =>
    rw [List.range_succ, List.filter_append, List.length_append, ih,
      Finset.range_succ, Finset.filter_insert]
    rcases hp : p n with _ | _
    · rw [if_neg (by simp)]
      simp [hp]
    · rw [if_pos rfl, Finset.card_insert_of_not_mem (by simp)]
      simp [hp]

theorem eller_survivor (wN r : Nat) (rng : Nat → Nat) (ids : Nat → Nat)
    (u : Nat) (hu : u < wN) :
    ∃ x, x < wN ∧ ids x = ids u ∧ carveDown wN ids rng r x = true := by
  have hmem : u ∈ membersOf wN ids (ids u) := by
    rw [membersOf]
    exact List.mem_filter.mpr ⟨List.mem_range.mpr hu, by simp⟩
  have hlen : 0 < (membersOf wN ids (ids u)).length :=
    List.length_pos.mpr (List.ne_nil_of_mem hmem)
  have hidx : rng (r * wN + ids u + 1) % (membersOf wN ids (ids u)).length <
      (membersOf wN ids (ids u)).length := Nat.mod_lt _ hlen
  have hx0m : chosenOf wN ids rng r (ids u) ∈ membersOf wN ids (ids u) := by
    rw [chosenOf, List.getD_eq_getElem _ _ hidx]
    exact List.getElem_mem _
  have hx0f := List.mem_filter.mp (by rw [membersOf] at hx0m; exact hx0m)
  have hx0w : chosenOf wN ids rng r (ids u) < wN := List.mem_range.mp hx0f.1
  have hx0id : ids (chosenOf wN ids rng r (ids u)) = ids u := by
    have := hx0f.2
    simpa using this
  refine ⟨chosenOf wN ids rng r (ids u), hx0w, hx0id, ?_⟩
  rw [carveDown, hx0id]
  simp

theorem filter_neg_card_add (p : Nat → Bool) :
    ∀ n : Nat, ((Finset.range n).filter (fun x => ¬(p x = true))).card +
      ((List.range n).filter p).length = n := by
  intro n
  induction n with
  | zero => rfl
  | succ n ih =>
    rw [List.range_succ, List.filter_append, List.length_append,
      Finset.range_succ, Finset.filter_insert]
    rcases hp : p n with _ | _
    · rw [if_pos (by simp [hp]), Finset.card_insert_of_not_mem (by simp)]
      simp only [List.filter_cons, hp, Bool.false_eq_true, if_false, List.filter_nil,
        List.length_nil]
      omega
    · rw [if_neg (by simp [hp])]
      simp only [List.filter_cons, hp, if_true, List.filter_nil, List.length_cons,
        List.length_nil]
      omega

theorem vPhase_inv (wN r : Nat) (rng : Nat → Nat) (st : ERow) (fresh : Nat)
    (hinv : EInv wN r st fresh) :
    EInv wN (r + 1) (vPhase wN r rng st fresh).1 (vPhase wN r rng st fresh).2 := by
  obtain ⟨L, hA1, hF, hA2, hA4, hA3, hC, hE⟩ := hinv
  rw [vPhase]
  dsimp only
  have hvmem : ∀ x, x < wN → carveDown wN st.ids rng r x = true →
      (cellN x r, cellN x (r + 1)) ∈
        (((List.range wN).filter (fun x => carveDown wN st.ids rng r x)).map
          (fun x => (cellN x r, cellN x (r + 1)))) ++ st.edges :=
    fun x hx hcx => List.mem_append_left _
      (List.mem_map.mpr ⟨x, List.mem_filter.mpr ⟨List.mem_range.mpr hx, hcx⟩, rfl⟩)
  have hmono : ∀ a b, Reach st.edges a b →
      Reach ((((List.range wN).filter (fun x => carveDown wN st.ids rng r x)).map
          (fun x => (cellN x r, cellN x (r + 1)))) ++ st.edges) a b :=
    fun a b hr => Reach.mono (fun e he => List.mem_append_right _ he) hr
  have htoNat : ∀ (x y : Nat), (cellN x y).x.toNat = x := by
    intro x y
    simp [cellN]
  refine ⟨fun c => if c.y = (r : Int) + 1
      then (if carveDown wN st.ids rng r c.x.toNat then st.ids c.x.toNat
            else fresh + c.x.toNat)
      else L c, ?_, ?_, ?_, ?_, ?_, ?_, ?_⟩
  · -- A1: edges join equally labelled cells
    intro e he
    rcases List.mem_append.mp he with hv | hold
    · rcases List.mem_map.mp hv with ⟨x, hxf, rfl⟩
      have hxf2 := List.mem_filter.mp hxf
      have hx : x < wN := List.mem_range.mp hxf2.1
      dsimp
      rw [if_neg (by dsimp [cellN]; omega), if_pos (by dsimp [cellN]; push_cast; ring)]
      rw [htoNat, hA2 x hx, if_pos hxf2.2]
    · have hy := hF e hold
      dsimp
      rw [if_neg (by omega), if_neg (by omega)]
      exact hA1 e hold
  · -- F: endpoints below row r+1
    intro e he
    rcases List.mem_append.mp he with hv | hold
    · rcases List.mem_map.mp hv with ⟨x, hxf, rfl⟩
      constructor <;> dsimp [cellN] <;> omega
    · have hy := hF e hold
      constructor <;> omega
  · -- A2: current row labels are the ids
    intro x hx
    dsimp
    rw [if_pos (by dsimp [cellN]; push_cast; ring), htoNat]
  · -- A4: equal ids are connected within row r+1
    intro x y hx hy hxy
    dsimp only at hxy ⊢
    split_ifs at hxy with hcx hcy hcy
    · -- both carved
      have hstep1 : Reach ((((List.range wN).filter
          (fun x => carveDown wN st.ids rng r x)).map
          (fun x => (cellN x r, cellN x (r + 1)))) ++ st.edges)
          (cellN x (r + 1)) (cellN x r) :=
        Relation.ReflTransGen.single (Or.inr (hvmem x hx hcx))
      have hstep2 : Reach ((((List.range wN).filter
          (fun x => carveDown wN st.ids rng r x)).map
          (fun x => (cellN x r, cellN x (r + 1)))) ++ st.edges)
          (cellN y r) (cellN y (r + 1)) :=
        Relation.ReflTransGen.single (Or.inl (hvmem y hy hcy))
      exact (hstep1.trans (hmono _ _ (hA4 x y hx hy hxy))).trans hstep2
    · -- x carved, y not: impossible since current ids are below fresh
      have := hE x hx
      omega
    · -- y carved, x not: impossible
      have := hE y hy
      omega
    · -- neither carved: fresh ids are injective
      have hxy2 : x = y := by omega
      subst hxy2
      exact Relation.ReflTransGen.refl
  · -- A3: every processed cell reaches a current-row cell of its label
    intro c hc
    obtain ⟨hc1, hc2, hc3, hc4⟩ := hc
    by_cases hcy : c.y = (r : Int) + 1
    · refine ⟨c.x.toNat, by omega, ?_, ?_⟩
      · dsimp only
        rw [if_pos hcy]
      · dsimp only
        have hcell : cellN c.x.toNat (r + 1) = c := by
          refine Coordinates.ext_xy _ _ ?_ ?_ <;> dsimp [cellN] <;> push_cast <;> omega
        rw [hcell]
        exact Relation.ReflTransGen.refl
    · have hcr : Pcell wN r c := ⟨hc1, hc2, hc3, by omega⟩
      obtain ⟨u, hu, hLc, hrc⟩ := hA3 c hcr
      obtain ⟨x₀, hx₀w, hx₀id, hx₀c⟩ := eller_survivor wN r rng st.ids u hu
      refine ⟨x₀, hx₀w, ?_, ?_⟩
      · dsimp only
        rw [if_neg hcy, if_pos hx₀c, hLc, hx₀id]
      · have hr1 := hmono _ _ hrc
        have hr2 := hmono _ _ (hA4 u x₀ hu hx₀w hx₀id.symm)
        have hr3 : Reach ((((List.range wN).filter
            (fun x => carveDown wN st.ids rng r x)).map
            (fun x => (cellN x r, cellN x (r + 1)))) ++ st.edges)
            (cellN x₀ r) (cellN x₀ (r + 1)) :=
          Relation.ReflTransGen.single (Or.inl (hvmem x₀ hx₀w hx₀c))
        exact (hr1.trans hr2).trans hr3
  · -- C: the count balance
    have hsum := filter_neg_card_add (fun x => carveDown wN st.ids rng r x) wN
    have himg : (Finset.range wN).image
        (fun x => if carveDown wN st.ids rng r x then st.ids x else fresh + x) =
        ((Finset.range wN).image st.ids) ∪
          (((Finset.range wN).filter
            (fun x => ¬(carveDown wN st.ids rng r x = true))).image
            (fun x => fresh + x)) := by
      ext v
      simp only [Finset.mem_image, Finset.mem_union, Finset.mem_filter, Finset.mem_range]
      constructor
      · rintro ⟨x, hx, rfl⟩
        by_cases hcx : carveDown wN st.ids rng r x = true
        · rw [if_pos hcx]
          exact Or.inl ⟨x, hx, rfl⟩
        · rw [if_neg hcx]
          exact Or.inr ⟨x, ⟨hx, hcx⟩, rfl⟩
      · rintro (⟨u, hu, rfl⟩ | ⟨x, ⟨hx, hcx⟩, rfl⟩)
        · obtain ⟨x₀, hx₀w, hx₀id, hx₀c⟩ := eller_survivor wN r rng st.ids u hu
          exact ⟨x₀, hx₀w, by rw [if_pos hx₀c, hx₀id]⟩
        · exact ⟨x, hx, by rw [if_neg hcx]⟩
    have hdisj : Disjoint ((Finset.range wN).image st.ids)
        (((Finset.range wN).filter
          (fun x => ¬(carveDown wN st.ids rng r x = true))).image
          (fun x => fresh + x)) := by
      rw [Finset.disjoint_left]
      rintro v hv1 hv2
      rcases Finset.mem_image.mp hv1 with ⟨u, hu, rfl⟩
      rcases Finset.mem_image.mp hv2 with ⟨x, _, hxv⟩
      have := hE u (Finset.mem_range.mp hu)
      omega
    have hinj : (((Finset.range wN).filter
        (fun x => ¬(carveDown wN st.ids rng r x = true))).image
          (fun x => fresh + x)).card =
        ((Finset.range wN).filter
          (fun x => ¬(carveDown wN st.ids rng r x = true))).card :=
      Finset.card_image_of_injective _ (fun a b hab => by omega)
    show (_ ++ st.edges).length + Dcount wN _ = (r + 1 + 1) * wN
    rw [List.length_append, List.length_map, Dcount, himg,
      Finset.card_union_of_disjoint hdisj, hinj]
    rw [Dcount] at hC
    generalize hKk : (List.filter (fun x => carveDown wN st.ids rng r x)
      (List.range wN)).length = K at hsum ⊢
    generalize hAa : (Finset.image st.ids (Finset.range wN)).card = A at hC ⊢
    generalize hFf : (Finset.filter (fun x => ¬carveDown wN st.ids rng r x = true)
      (Finset.range wN)).card = F at hsum ⊢
    ring_nf at hC ⊢
    omega
  · -- E: ids below the new fresh counter
    intro x hx
    dsimp only
    by_cases hcx : carveDown wN st.ids rng r x = true
    · rw [if_pos hcx]
      have := hE x hx
      omega
    · rw [if_neg hcx]
      omega

theorem eller_init_inv (wN : Nat) (_hw : 1 ≤ wN) :
    EInv wN 0 ⟨fun x => x, []⟩ wN := by
  refine ⟨fun c => c.x.toNat, ?_, ?_, ?_, ?_, ?_, ?_, ?_⟩
  · intro e he
    exact absurd he (List.not_mem_nil e)
  · intro e he
    exact absurd he (List.not_mem_nil e)
  · intro x hx
    dsimp [cellN]
  · intro x y hx hy hxy
    dsimp at hxy
    subst hxy
    exact Relation.ReflTransGen.refl
  · intro c hc
    obtain ⟨hc1, hc2, hc3, hc4⟩ := hc
    refine ⟨c.x.toNat, by omega, rfl, ?_⟩
    have hcell : cellN c.x.toNat 0 = c := by
      refine Coordinates.ext_xy _ _ ?_ ?_ <;> dsimp [cellN] <;> omega
    rw [hcell]
    exact Relation.ReflTransGen.refl
  · show 0 + Dcount wN (fun x => x) = 1 * wN
    rw [Dcount]
    have himg : (Finset.range wN).image (fun x => x) = Finset.range wN := by
      ext v
      simp
    rw [himg, Finset.card_range]
    omega
  · intro x hx
    exact hx

theorem ellerLoop_good (wN : Nat) (rng : Nat → Nat) (hw : 1 ≤ wN) :
    ∀ (n : Nat), 1 ≤ n → ∀ (r : Nat) (st : ERow) (fresh : Nat),
      EInv wN r st fresh →
      (∃ fr2, EInv wN (r + n - 1) (ellerLoop wN rng n r st fresh) fr2) ∧
      (∀ y, y < wN → (ellerLoop wN rng n r st fresh).ids y =
        (ellerLoop wN rng n r st fresh).ids 0) := by
  intro n
  induction n with
  | zero => intro hn; omega
  | succ m ih =>
    intro _ r st fresh hinv
    match m with
    | 0 =>
      show (∃ fr2, EInv wN (r + 1 - 1) (hPhase wN r true rng st) fr2) ∧ _
      refine ⟨⟨fresh, ?_⟩, ?_⟩
      · have := hPhase_inv wN r true rng st fresh hinv
        simpa using this
      · exact hPhase_forced_const wN r rng st hw
    | Nat.succ k =>
      show (∃ fr2, EInv wN (r + (k + 2) - 1)
        (ellerLoop wN rng (k + 1) (r + 1)
          (vPhase wN r rng (hPhase wN r false rng st) fresh).1
          (vPhase wN r rng (hPhase wN r false rng st) fresh).2) fr2) ∧ _
      have h1 := hPhase_inv wN r false rng st fresh hinv
      have h2 := vPhase_inv wN r rng (hPhase wN r false rng st) fresh h1
      have h3 := ih (by omega) (r + 1)
        (vPhase wN r rng (hPhase wN r false rng st) fresh).1
        (vPhase wN r rng (hPhase wN r false rng st) fresh).2 h2
      have harith : r + 1 + (k + 1) - 1 = r + (k + 2) - 1 := by omega
      rw [harith] at h3
      exact h3

theorem length_rows (w : Int) :
    ∀ ys : List Int,
      (ys.flatMap (fun iy => (rowCells w).map (fun ix => (⟨ix, iy⟩ : Coordinates)))).length =
        ys.length * w.toNat := by
  intro ys
  induction ys with
  | nil => simp
  | cons y ys ih =>
    rw [List.flatMap_cons, List.length_append, List.length_map, ih, List.length_cons]
    have hrw : (rowCells w).length = w.toNat := by simp [rowCells]
    rw [hrw]
    ring

theorem ellerGenerate_ok (rng : Nat → Nat) (w h : Int)
    (hw : 0 < w) (hh : 0 < h) :
    ∃ m, ellerGenerate rng w h = Except.ok m ∧ SpanningTreeInvariant m w h := by
  simp only [ellerGenerate, if_pos (And.intro hw hh)]
  refine ⟨_, rfl, ?_⟩
  have hw1 : 1 ≤ w.toNat := by omega
  have hh1 : 1 ≤ h.toNat := by omega
  obtain ⟨⟨fr2, hinv⟩, hconst⟩ := ellerLoop_good w.toNat rng hw1 h.toNat hh1 0
    ⟨fun x => x, []⟩ w.toNat (eller_init_inv w.toNat hw1)
  obtain ⟨L, hA1, hF, hA2, hA4, hA3, hC, hE⟩ := hinv
  have hrow : 0 + h.toNat - 1 = h.toNat - 1 := by omega
  rw [hrow] at hA2 hA4 hA3 hC
  have hwcast : ((w.toNat : Int)) = w := by omega
  have hhcast : ((h.toNat : Int)) = h := by omega
  -- translate between grid bounds and processed cells
  have hPiff : ∀ c : Coordinates,
      Pcell w.toNat (h.toNat - 1) c ↔ (0 ≤ c.x ∧ c.x < w ∧ 0 ≤ c.y ∧ c.y < h) := by
    intro c
    rw [Pcell]
    omega
  -- the connectivity core
  have hconn : ∀ c : Coordinates, (0 ≤ c.x ∧ c.x < w ∧ 0 ≤ c.y ∧ c.y < h) →
      Reach (ellerLoop w.toNat rng h.toNat 0 ⟨fun x => x, []⟩ w.toNat).edges c
        (cellN 0 (h.toNat - 1)) := by
    intro c hc
    obtain ⟨x₁, hx₁, _, hr₁⟩ := hA3 c ((hPiff c).mpr hc)
    have hids : (ellerLoop w.toNat rng h.toNat 0 ⟨fun x => x, []⟩ w.toNat).ids x₁ =
        (ellerLoop w.toNat rng h.toNat 0 ⟨fun x => x, []⟩ w.toNat).ids 0 :=
      hconst x₁ hx₁
    exact hr₁.trans (hA4 x₁ 0 hx₁ (by omega) hids)
  refine ⟨rfl, nodup_rows w (rowCells h) (nodup_rowCells h), ?_, ?_, ?_, ?_⟩
  · -- node membership
    intro c
    constructor
    · intro hc
      rcases List.mem_flatMap.mp hc with ⟨iy, hiy, hcm⟩
      rcases List.mem_map.mp hcm with ⟨ix, hix, rfl⟩
      have h1 := mem_rowCells.mp hiy
      have h2 := mem_rowCells.mp hix
      exact ⟨h2.1, h2.2, h1.1, h1.2⟩
    · rintro ⟨h1, h2, h3, h4⟩
      exact List.mem_flatMap.mpr ⟨c.y, mem_rowCells.mpr ⟨h3, h4⟩,
        List.mem_map.mpr ⟨c.x, mem_rowCells.mpr ⟨h1, h2⟩, rfl⟩⟩
  · -- node count
    show ((rowCells h).flatMap (fun iy =>
      (rowCells w).map (fun ix => (⟨ix, iy⟩ : Coordinates)))).length = w.toNat * h.toNat
    rw [length_rows]
    have hrh : (rowCells h).length = h.toNat := by simp [rowCells]
    rw [hrh]
    ring
  · -- edge count
    have hD : Dcount w.toNat
        (ellerLoop w.toNat rng h.toNat 0 ⟨fun x => x, []⟩ w.toNat).ids = 1 :=
      Dcount_const w.toNat hw1 _ hconst
    rw [hD] at hC
    have harith : h.toNat - 1 + 1 = h.toNat := by omega
    rw [harith] at hC
    show (ellerLoop w.toNat rng h.toNat 0 ⟨fun x => x, []⟩ w.toNat).edges.length =
      w.toNat * h.toNat - 1
    have hcomm : h.toNat * w.toNat = w.toNat * h.toNat := by ring
    omega
  · -- connectivity
    intro a ha b hb
    have hamem : 0 ≤ a.x ∧ a.x < w ∧ 0 ≤ a.y ∧ a.y < h := by
      rcases List.mem_flatMap.mp ha with ⟨iy, hiy, ham⟩
      rcases List.mem_map.mp ham with ⟨ix, hix, rfl⟩
      have h1 := mem_rowCells.mp hiy
      have h2 := mem_rowCells.mp hix
      exact ⟨h2.1, h2.2, h1.1, h1.2⟩
    have hbmem : 0 ≤ b.x ∧ b.x < w ∧ 0 ≤ b.y ∧ b.y < h := by
      rcases List.mem_flatMap.mp hb with ⟨iy, hiy, hbm⟩
      rcases List.mem_map.mp hbm with ⟨ix, hix, rfl⟩
      have h1 := mem_rowCells.mp hiy
      have h2 := mem_rowCells.mp hix
      exact ⟨h2.1, h2.2, h1.1, h1.2⟩
    exact (hconn a hamem).trans (Reach.symm (hconn b hbmem))

/-- C1 (for the generators modelled from the spec): for every random
stream and every strictly positive width and height, all the modelled
generation algorithms — the growing-tree family (which subsumes
recursive backtracking and the random-selection Prim's-like policy),
randomized Prim's, and Eller's algorithm — succeed and return a maze
whose passage graph is a spanning tree of the grid: one node per
coordinate of `[0,width) × [0,height)` (hence `width*height` nodes),
exactly `width*height - 1` edges, and full connectivity. -/
theorem claim_C1_spanning_tree (rng : Nat → Nat) (w h : Int)
    (hw : 0 < w) (hh : 0 < h) :
    (∃ m, growingTreeGenerate rng w h = Except.ok m ∧ SpanningTreeInvariant m w h) ∧
    (∃ m, primGenerate rng w h = Except.ok m ∧ SpanningTreeInvariant m w h) ∧
    (∃ m, ellerGenerate rng w h = Except.ok m ∧ SpanningTreeInvariant m w h) :=
  ⟨growingTreeGenerate_ok rng w h hw hh, primGenerate_ok rng w h hw hh,
    ellerGenerate_ok rng w h hw hh⟩

/-- Witness for C1 at a concrete size and random stream. -/
theorem claim_C1_witness :
    (∃ m, growingTreeGenerate (fun _ => 0) 2 2 = Except.ok m ∧
      SpanningTreeInvariant m 2 2) ∧
    (∃ m, primGenerate (fun _ => 0) 2 2 = Except.ok m ∧
      SpanningTreeInvariant m 2 2) ∧
    (∃ m, ellerGenerate (fun _ => 0) 2 2 = Except.ok m ∧
      SpanningTreeInvariant m 2 2) :=
  claim_C1_spanning_tree (fun _ => 0) 2 2 (by decide) (by decide)

end MazeGen

